import Mathlib

/-!
# Verification of the sync-engine core against its specification

Shallow embedding of the sync-engine repository (TypeScript) in Lean 4.

Conventions of the embedding:
* JavaScript numbers that the code validates as non-negative integers
  (`assertFiniteInteger`, HLC wall clocks, counters, sequences, timestamps)
  are modelled as `Nat`.
* JavaScript strings are Lean `String`s; the `<` comparison on strings is
  lexicographic in both.
* `undefined` / optional fields are `Option`; a field that can be a string,
  `null`, or absent is `Option (Option String)`.
* Opaque JSON payloads (`data`) are modelled as `String` values; the code
  never inspects them, only clones them (`structuredClone` is the identity
  in the pure model).
* Fallible code (`throw`) is modelled with `Except String`.
* `Map` objects are association lists with JavaScript `Map` semantics:
  `set` replaces in place when the key is present, otherwise appends.
* Async methods guarded by a serial queue are pure state-passing functions:
  within the queue each operation runs without interleaving, so its body
  is a function of the state at entry.
-/

set_option autoImplicit false

namespace SyncSpec

/-! ## HLC clocks (src/hlc/clock.ts)

The service stores clocks as formatted strings; all arithmetic happens on
the parsed triple, so clocks are modelled as `ParsedClock` triples directly
(`formatClock`/`parseClock` are inverse on the triples the service builds).
-/

/-- Parsed HLC triple (src/hlc/clock.ts `ParsedClock`). -/
structure ParsedClock where
  wallMs : Nat
  counter : Nat
  nodeId : String
deriving Repr, DecidableEq

/-- src/hlc/clock.ts `compareClocks`, on parsed triples. -/
def compareClocks (a b : ParsedClock) : Int :=
  if a.wallMs ≠ b.wallMs then
    if a.wallMs < b.wallMs then -1 else 1
  else if a.counter ≠ b.counter then
    if a.counter < b.counter then -1 else 1
  else if a.nodeId = b.nodeId then 0
  else if a.nodeId < b.nodeId then -1 else 1

/-- src/hlc/clock.ts `nextClock`. -/
def nextClock (lastClock : Option ParsedClock) (nodeId : String) (nowMs : Nat) : ParsedClock :=
  match lastClock with
  | none => ⟨nowMs, 0, nodeId⟩
  | some last =>
    if nowMs > last.wallMs then ⟨nowMs, 0, nodeId⟩
    else ⟨last.wallMs, last.counter + 1, nodeId⟩

/-- src/hlc/clock.ts `nextClockFromRemote`.  When the local clock is absent the
source uses `Number.NEGATIVE_INFINITY` as its wall and `0` as its counter; the
sentinel wall never equals the (non-negative) maximum, which the `none` branch
reflects. -/
def nextClockFromRemote (lastLocalClock : Option ParsedClock) (remoteClock : ParsedClock)
    (nodeId : String) (nowMs : Nat) : ParsedClock :=
  match lastLocalClock with
  | none =>
    let maxWallMs := max nowMs remoteClock.wallMs
    let counter := if maxWallMs = remoteClock.wallMs then remoteClock.counter + 1 else 0
    ⟨maxWallMs, counter, nodeId⟩
  | some localClock =>
    let maxWallMs := max nowMs (max localClock.wallMs remoteClock.wallMs)
    let counter :=
      if maxWallMs = localClock.wallMs ∧ maxWallMs = remoteClock.wallMs then
        max localClock.counter remoteClock.counter + 1
      else if maxWallMs = localClock.wallMs then localClock.counter + 1
      else if maxWallMs = remoteClock.wallMs then remoteClock.counter + 1
      else 0
    ⟨maxWallMs, counter, nodeId⟩

/-- Modelled from the spec's words for `next_from_remote` (spec section 4.1 and
claim C4): wall is the maximum of `nowMs`, the last local wall when present and
the remote wall; the counter is `max(last.counter, remote.counter) + 1` when
both walls equal that maximum, `last.counter + 1` when only the last wall
equals it, `remote.counter + 1` when only the remote wall equals it, and `0`
otherwise.  Used as the comparison target for the refinement claim C4. -/
def specNextFromRemote (lastLocalClock : Option ParsedClock) (remoteClock : ParsedClock)
    (nodeId : String) (nowMs : Nat) : ParsedClock :=
  match lastLocalClock with
  | none =>
    let wall := max nowMs remoteClock.wallMs
    let counter := if remoteClock.wallMs = wall then remoteClock.counter + 1 else 0
    ⟨wall, counter, nodeId⟩
  | some last =>
    let wall := max nowMs (max last.wallMs remoteClock.wallMs)
    let counter :=
      if last.wallMs = wall ∧ remoteClock.wallMs = wall then
        max last.counter remoteClock.counter + 1
      else if last.wallMs = wall then last.counter + 1
      else if remoteClock.wallMs = wall then remoteClock.counter + 1
      else 0
    ⟨wall, counter, nodeId⟩

/-! ### The strict HLC order, and its relation to `compareClocks` -/

/-- The strict HLC order on parsed triples: numeric on wall, then numeric on
counter, then lexicographic on node id. -/
def hlcLt (a b : ParsedClock) : Prop :=
  a.wallMs < b.wallMs ∨
    (a.wallMs = b.wallMs ∧
      (a.counter < b.counter ∨ (a.counter = b.counter ∧ a.nodeId < b.nodeId)))

def hlcLe (a b : ParsedClock) : Prop := hlcLt a b ∨ a = b

theorem compareClocks_eq_neg_one_iff (a b : ParsedClock) :
    compareClocks a b = -1 ↔ hlcLt a b := by
  unfold compareClocks hlcLt
  split_ifs with h1 h2 h3 h4 h5 h6
  · exact iff_of_true rfl (Or.inl h2)
  · refine iff_of_false (by decide) ?_
    rintro (h | ⟨h, _⟩)
    · exact h2 h
    · exact h1 h
  · exact iff_of_true rfl (Or.inr ⟨by omega, Or.inl h4⟩)
  · refine iff_of_false (by decide) ?_
    rintro (h | ⟨_, h | ⟨h, _⟩⟩)
    · omega
    · exact h4 h
    · exact h3 h
  · refine iff_of_false (by decide) ?_
    rintro (h | ⟨_, h | ⟨_, h⟩⟩)
    · omega
    · omega
    · exact absurd h (h5 ▸ lt_irrefl _)
  · exact iff_of_true rfl (Or.inr ⟨by omega, Or.inr ⟨by omega, h6⟩⟩)
  · refine iff_of_false (by decide) ?_
    rintro (h | ⟨_, h | ⟨_, h⟩⟩)
    · omega
    · omega
    · exact h6 h

theorem hlcLt_trans {a b c : ParsedClock} (hab : hlcLt a b) (hbc : hlcLt b c) : hlcLt a c := by
  rcases hab with h | ⟨hw, h⟩ <;> rcases hbc with h' | ⟨hw', h'⟩
  · exact Or.inl (lt_trans h h')
  · exact Or.inl (hw' ▸ h)
  · exact Or.inl (hw ▸ h')
  · refine Or.inr ⟨hw.trans hw', ?_⟩
    rcases h with h | ⟨hc, h⟩ <;> rcases h' with h' | ⟨hc', h'⟩
    · exact Or.inl (lt_trans h h')
    · exact Or.inl (hc' ▸ h)
    · exact Or.inl (hc ▸ h')
    · exact Or.inr ⟨hc.trans hc', lt_trans h h'⟩

theorem hlcLt_irrefl (a : ParsedClock) : ¬ hlcLt a a := by
  unfold hlcLt
  intro h
  rcases h with h | ⟨_, h | ⟨_, h⟩⟩
  · exact lt_irrefl _ h
  · exact lt_irrefl _ h
  · exact lt_irrefl _ h

theorem hlcLe_lt_trans {a b c : ParsedClock} (hab : hlcLe a b) (hbc : hlcLt b c) :
    hlcLt a c := by
  rcases hab with h | rfl
  · exact hlcLt_trans h hbc
  · exact hbc

theorem hlcLt_le_trans {a b c : ParsedClock} (hab : hlcLt a b) (hbc : hlcLe b c) :
    hlcLt a c := by
  rcases hbc with h | rfl
  · exact hlcLt_trans hab h
  · exact hab

/-! ### Monotonicity building blocks -/

theorem nextClock_gt (last : ParsedClock) (nodeId : String) (nowMs : Nat) :
    hlcLt last (nextClock (some last) nodeId nowMs) := by
  unfold nextClock hlcLt
  dsimp only
  split_ifs with h
  · exact Or.inl h
  · exact Or.inr ⟨rfl, Or.inl (Nat.lt_succ_self _)⟩

theorem nextClockFromRemote_gt (last remote : ParsedClock) (nodeId : String) (nowMs : Nat) :
    hlcLt last (nextClockFromRemote (some last) remote nodeId nowMs) := by
  unfold nextClockFromRemote hlcLt
  dsimp only
  by_cases hwall : max nowMs (max last.wallMs remote.wallMs) = last.wallMs
  · refine Or.inr ⟨hwall.symm, Or.inl ?_⟩
    split_ifs <;> omega
  · have : last.wallMs < max nowMs (max last.wallMs remote.wallMs) := by
      have hle : last.wallMs ≤ max nowMs (max last.wallMs remote.wallMs) :=
        le_max_of_le_right (le_max_left _ _)
      omega
    exact Or.inl this

instance : IsTrans ParsedClock hlcLt := ⟨fun _ _ _ => hlcLt_trans⟩

/-! ## Clock service (src/core/hlc/service.ts `createClockService`)

The service serializes `next` / `nextBatch` / `nextFromRemote` through a
serial queue and keeps `current` (the last persisted clock) in memory after
the first `load`.  Each queued call is therefore a pure function of the
persisted state at entry; a whole call sequence is a fold.  `nextBatch`
validates `count` before enqueueing: `count = 0` throws `Invalid count`
without issuing or persisting anything.
-/

/-- The loop body of `nextBatch`: issue `n` clocks, each taking the previous
one as `lastClock`, all sharing one `baseNowMs`. -/
def genBatchClocks (nodeId : String) (nowMs : Nat) : Option ParsedClock → Nat → List ParsedClock
  | _, 0 => []
  | last, Nat.succ n =>
    let c := nextClock last nodeId nowMs
    c :: genBatchClocks nodeId nowMs (some c) n

/-- One mutating call on the clock service. -/
inductive ClockCall where
  | next (nowMs : Nat)
  | nextBatch (count : Nat) (nowMs : Nat)
  | nextFromRemote (remoteClock : ParsedClock) (nowMs : Nat)

/-- Observable effect of one clock-service call: the clocks returned to the
caller, the clocks handed to `storage.write`, and the persisted state after
the call. -/
structure ClockCallResult where
  outputs : List ParsedClock
  writes : List ParsedClock
  state : Option ParsedClock

/-- One call on `createClockService`'s returned object (the `count = 0` branch
models the `Invalid count` throw: nothing is issued or persisted; the inner
`none` branch of `getLast?` is unreachable for positive `count`, mirroring the
`Unable to generate HLC batch` guard). -/
def runClockCall (nodeId : String) (st : Option ParsedClock) : ClockCall → ClockCallResult
  | .next nowMs =>
    let c := nextClock st nodeId nowMs
    ⟨[c], [c], some c⟩
  | .nextBatch count nowMs =>
    match count with
    | 0 => ⟨[], [], st⟩
    | Nat.succ n =>
      let clocks := genBatchClocks nodeId nowMs st (n + 1)
      match clocks.getLast? with
      | some finalClock => ⟨clocks, [finalClock], some finalClock⟩
      | none => ⟨[], [], st⟩
  | .nextFromRemote remoteClock nowMs =>
    let c := nextClockFromRemote st remoteClock nodeId nowMs
    ⟨[c], [c], some c⟩

/-- All clocks returned to callers across a sequence of calls, in order. -/
def runClockTrace (nodeId : String) : Option ParsedClock → List ClockCall → List ParsedClock
  | _, [] => []
  | st, call :: rest =>
    let r := runClockCall nodeId st call
    r.outputs ++ runClockTrace nodeId r.state rest

theorem genBatchClocks_length (nodeId : String) (nowMs : Nat) :
    ∀ (n : Nat) (st : Option ParsedClock), (genBatchClocks nodeId nowMs st n).length = n := by
  intro n
  induction n with
  | zero => intro st; rfl
  | succ n ih =>
    intro st
    simp only [genBatchClocks, List.length_cons, ih]

theorem genBatchClocks_spec (nodeId : String) (nowMs : Nat) :
    ∀ (n : Nat) (st : Option ParsedClock),
      List.Chain' hlcLt (genBatchClocks nodeId nowMs st n) ∧
      (∀ c, st = some c → ∀ x ∈ genBatchClocks nodeId nowMs st n, hlcLt c x) ∧
      (∀ d, (genBatchClocks nodeId nowMs st n).getLast? = some d →
        (∀ x ∈ genBatchClocks nodeId nowMs st n, hlcLe x d) ∧
        (∀ c, st = some c → hlcLt c d)) := by
  intro n
  induction n with
  | zero =>
    intro st
    refine ⟨List.chain'_nil, ?_, ?_⟩
    · intro c _ x hx; simp [genBatchClocks] at hx
    · intro d hd; simp [genBatchClocks] at hd
  | succ n ih =>
    intro st
    set nc := nextClock st nodeId nowMs with hnc
    have hdef : genBatchClocks nodeId nowMs st (n + 1)
        = nc :: genBatchClocks nodeId nowMs (some nc) n := rfl
    obtain ⟨ihChain, ihGt, ihLast⟩ := ih (some nc)
    have hgtnc : ∀ x ∈ genBatchClocks nodeId nowMs (some nc) n, hlcLt nc x :=
      ihGt nc rfl
    have hstep : ∀ c, st = some c → hlcLt c nc := by
      intro c hc
      rw [hnc, hc]
      exact nextClock_gt c nodeId nowMs
    refine ⟨?_, ?_, ?_⟩
    · rw [hdef]
      refine List.chain'_cons'.mpr ⟨?_, ihChain⟩
      intro y hy
      exact hgtnc y (List.mem_of_mem_head? hy)
    · intro c hc x hx
      rw [hdef] at hx
      rcases List.mem_cons.mp hx with rfl | hx
      · exact hstep c hc
      · exact hlcLt_trans (hstep c hc) (hgtnc x hx)
    · intro d hd
      rw [hdef] at hd
      rcases hrest : genBatchClocks nodeId nowMs (some nc) n with _ | ⟨y, ys⟩
      · rw [hrest] at hd
        simp only [List.getLast?_singleton, Option.some.injEq] at hd
        subst hd
        constructor
        · intro x hx
          rw [hdef, hrest] at hx
          simp only [List.mem_singleton] at hx
          exact Or.inr hx
        · exact hstep
      · have hne : y :: ys ≠ [] := by simp
        have hlast : (genBatchClocks nodeId nowMs (some nc) n).getLast? = some d := by
          rw [hrest]
          rw [hrest] at hd
          simpa using hd
        obtain ⟨hle, hgt⟩ := ihLast d hlast
        constructor
        · intro x hx
          rw [hdef] at hx
          rcases List.mem_cons.mp hx with rfl | hx
          · exact Or.inl (hgt nc rfl)
          · exact hle x hx
        · intro c hc
          exact hlcLt_trans (hstep c hc) (hgt nc rfl)

theorem runClockCall_spec (nodeId : String) (st : Option ParsedClock) (call : ClockCall) :
    List.Pairwise hlcLt (runClockCall nodeId st call).outputs ∧
    (∀ c, st = some c → ∀ x ∈ (runClockCall nodeId st call).outputs, hlcLt c x) ∧
    (((runClockCall nodeId st call).state = st ∧ (runClockCall nodeId st call).outputs = []) ∨
      ∃ d, (runClockCall nodeId st call).state = some d ∧
        (∀ x ∈ (runClockCall nodeId st call).outputs, hlcLe x d) ∧
        (∀ c, st = some c → hlcLt c d)) := by
  cases call with
  | next nowMs =>
    refine ⟨List.pairwise_singleton _ _, ?_, ?_⟩
    · intro c hc x hx
      simp only [runClockCall, List.mem_singleton] at hx
      subst hx
      rw [hc]
      exact nextClock_gt c nodeId nowMs
    · refine Or.inr ⟨nextClock st nodeId nowMs, rfl, ?_, ?_⟩
      · intro x hx
        simp only [runClockCall, List.mem_singleton] at hx
        exact Or.inr hx
      · intro c hc
        rw [hc]
        exact nextClock_gt c nodeId nowMs
  | nextFromRemote remote nowMs =>
    refine ⟨List.pairwise_singleton _ _, ?_, ?_⟩
    · intro c hc x hx
      simp only [runClockCall, List.mem_singleton] at hx
      subst hx
      rw [hc]
      exact nextClockFromRemote_gt c remote nodeId nowMs
    · refine Or.inr ⟨nextClockFromRemote st remote nodeId nowMs, rfl, ?_, ?_⟩
      · intro x hx
        simp only [runClockCall, List.mem_singleton] at hx
        exact Or.inr hx
      · intro c hc
        rw [hc]
        exact nextClockFromRemote_gt c remote nodeId nowMs
  | nextBatch count nowMs =>
    cases count with
    | zero =>
      exact ⟨List.Pairwise.nil, fun c _ x hx => absurd hx (List.not_mem_nil x),
        Or.inl ⟨rfl, rfl⟩⟩
    | succ n =>
      obtain ⟨hChain, hGt, hLast⟩ := genBatchClocks_spec nodeId nowMs (n + 1) st
      have hlen := genBatchClocks_length nodeId nowMs (n + 1) st
      rcases hd : (genBatchClocks nodeId nowMs st (n + 1)).getLast? with _ | d
      · exfalso
        rw [List.getLast?_eq_none_iff] at hd
        rw [hd] at hlen
        simp at hlen
      · have hres : runClockCall nodeId st (ClockCall.nextBatch (n + 1) nowMs)
            = ⟨genBatchClocks nodeId nowMs st (n + 1), [d], some d⟩ := by
          simp only [runClockCall, hd]
        obtain ⟨hle, hgt⟩ := hLast d hd
        rw [hres]
        refine ⟨List.chain'_iff_pairwise.mp hChain, hGt, Or.inr ⟨d, rfl, hle, hgt⟩⟩

theorem runClockTrace_spec (nodeId : String) :
    ∀ (calls : List ClockCall) (st : Option ParsedClock),
      List.Pairwise hlcLt (runClockTrace nodeId st calls) ∧
      (∀ c, st = some c → ∀ x ∈ runClockTrace nodeId st calls, hlcLt c x) := by
  intro calls
  induction calls with
  | nil =>
    exact fun st => ⟨List.Pairwise.nil, fun c _ x hx => absurd hx (List.not_mem_nil x)⟩
  | cons call rest ih =>
    intro st
    obtain ⟨hP, hG, hS⟩ := runClockCall_spec nodeId st call
    obtain ⟨ihP, ihG⟩ := ih (runClockCall nodeId st call).state
    have hdef : runClockTrace nodeId st (call :: rest)
        = (runClockCall nodeId st call).outputs
          ++ runClockTrace nodeId (runClockCall nodeId st call).state rest := rfl
    constructor
    · rw [hdef, List.pairwise_append]
      refine ⟨hP, ihP, ?_⟩
      intro x hx y hy
      rcases hS with ⟨_, hout⟩ | ⟨d, hst, hled, _⟩
      · rw [hout] at hx; simp at hx
      · exact hlcLe_lt_trans (hled x hx) (ihG d hst y hy)
    · intro c hc x hx
      rw [hdef, List.mem_append] at hx
      rcases hx with hx | hx
      · exact hG c hc x hx
      · rcases hS with ⟨hst, _⟩ | ⟨d, hst, _, hgtd⟩
        · exact ihG c (hst.trans hc) x hx
        · exact hlcLt_trans (hgtd c hc) (ihG d hst x hx)

/-- C3: across any sequence of `next` / `nextBatch` / `nextFromRemote` calls on
one clock service, every returned clock compares strictly greater
(`compareClocks earlier later = -1`) than every clock returned earlier; within
one `nextBatch (count+1)` call the `count+1` returned clocks are strictly
increasing and only the last of them is written to the clock storage adapter
(and becomes the persisted state). -/
theorem clock_service_monotonic :
    (∀ (nodeId : String) (st : Option ParsedClock) (calls : List ClockCall),
      List.Pairwise (fun a b => compareClocks a b = -1) (runClockTrace nodeId st calls)) ∧
    (∀ (nodeId : String) (st : Option ParsedClock) (count nowMs : Nat),
      ∃ w,
        (runClockCall nodeId st (ClockCall.nextBatch (count + 1) nowMs)).outputs.length
          = count + 1 ∧
        List.Pairwise (fun a b => compareClocks a b = -1)
          (runClockCall nodeId st (ClockCall.nextBatch (count + 1) nowMs)).outputs ∧
        (runClockCall nodeId st (ClockCall.nextBatch (count + 1) nowMs)).outputs.getLast?
          = some w ∧
        (runClockCall nodeId st (ClockCall.nextBatch (count + 1) nowMs)).writes = [w] ∧
        (runClockCall nodeId st (ClockCall.nextBatch (count + 1) nowMs)).state = some w) := by
  constructor
  · intro nodeId st calls
    exact ((runClockTrace_spec nodeId calls st).1).imp
      (fun h => (compareClocks_eq_neg_one_iff _ _).mpr h)
  · intro nodeId st count nowMs
    have hlen := genBatchClocks_length nodeId nowMs (count + 1) st
    obtain ⟨hChain, _, _⟩ := genBatchClocks_spec nodeId nowMs (count + 1) st
    rcases hd : (genBatchClocks nodeId nowMs st (count + 1)).getLast? with _ | d
    · exfalso
      rw [List.getLast?_eq_none_iff] at hd
      rw [hd] at hlen
      simp at hlen
    · have hres : runClockCall nodeId st (ClockCall.nextBatch (count + 1) nowMs)
          = ⟨genBatchClocks nodeId nowMs st (count + 1), [d], some d⟩ := by
        simp only [runClockCall, hd]
      refine ⟨d, ?_, ?_, ?_, ?_, ?_⟩ <;> rw [hres]
      · exact hlen
      · exact (List.chain'_iff_pairwise.mp hChain).imp
          (fun h => (compareClocks_eq_neg_one_iff _ _).mpr h)
      · exact hd

/-- C4: `nextClockFromRemote` computes exactly the wall/counter rule stated in
the specification (formalised as `specNextFromRemote`, written from the spec's
words): the wall is the maximum of `nowMs`, the last local wall (when present)
and the remote wall, and the counter follows the four-way case split on which
walls attain that maximum. -/
theorem nextClockFromRemote_matches_spec :
    ∀ (lastLocalClock : Option ParsedClock) (remoteClock : ParsedClock)
      (nodeId : String) (nowMs : Nat),
      nextClockFromRemote lastLocalClock remoteClock nodeId nowMs
        = specNextFromRemote lastLocalClock remoteClock nodeId nowMs := by
  intro lastLocalClock remoteClock nodeId nowMs
  cases lastLocalClock with
  | none =>
    unfold nextClockFromRemote specNextFromRemote
    dsimp only
    congr 1
    split_ifs with h1 h2 h3 <;> first | rfl | omega
  | some localClock =>
    unfold nextClockFromRemote specNextFromRemote
    dsimp only
    congr 1
    split_ifs with h1 h2 h3 h4 h5 h6 h7 <;> first | rfl | omega

/-! ## Rows and the LWW comparison (src/core/types.ts, src/core/storage/shared.ts)

The row envelope.  The `namespace` field is renamed `nspace` because
`namespace` is a Lean keyword.  `data` is an opaque JSON payload, `none`
for tombstones.
-/

/-- src/core/types.ts `StoredRow` / `AnyStoredRow`. -/
structure StoredRow where
  nspace : String
  collectionId : String
  id : String
  parentId : Option String
  data : Option String
  tombstone : Bool
  txId : Option String
  schemaVersion : Option Nat
  committedTimestampMs : Nat
  hlcTimestampMs : Nat
  hlcCounter : Nat
  hlcDeviceId : String
deriving Repr, DecidableEq

/-- src/core/storage/shared.ts `rowKey`. -/
def rowKey (collectionId id : String) : String :=
  collectionId ++ "::" ++ id

/-- src/core/storage/shared.ts `compareHlc` (on the HLC fields of two rows). -/
def compareHlc (a b : StoredRow) : Int :=
  if a.hlcTimestampMs ≠ b.hlcTimestampMs then
    if a.hlcTimestampMs < b.hlcTimestampMs then -1 else 1
  else if a.hlcCounter ≠ b.hlcCounter then
    if a.hlcCounter < b.hlcCounter then -1 else 1
  else if a.hlcDeviceId = b.hlcDeviceId then 0
  else if a.hlcDeviceId < b.hlcDeviceId then -1 else 1

/-- The strict HLC order on rows (wall, then counter numerically, then device
id lexicographically). -/
def hlcLtRow (a b : StoredRow) : Prop :=
  a.hlcTimestampMs < b.hlcTimestampMs ∨
    (a.hlcTimestampMs = b.hlcTimestampMs ∧
      (a.hlcCounter < b.hlcCounter ∨
        (a.hlcCounter = b.hlcCounter ∧ a.hlcDeviceId < b.hlcDeviceId)))

/-- Equality of the HLC triples of two rows. -/
def hlcEqRow (a b : StoredRow) : Prop :=
  a.hlcTimestampMs = b.hlcTimestampMs ∧ a.hlcCounter = b.hlcCounter ∧
    a.hlcDeviceId = b.hlcDeviceId

def hlcLeRow (a b : StoredRow) : Prop := hlcLtRow a b ∨ hlcEqRow a b

theorem compareHlc_eq_one_iff (a b : StoredRow) : compareHlc a b = 1 ↔ hlcLtRow b a := by
  unfold compareHlc hlcLtRow
  split_ifs with h1 h2 h3 h4 h5 h6
  · refine iff_of_false (by decide) ?_
    rintro (h | ⟨h, _⟩)
    · omega
    · omega
  · exact iff_of_true rfl (Or.inl (by omega))
  · refine iff_of_false (by decide) ?_
    rintro (h | ⟨_, h | ⟨h, _⟩⟩)
    · omega
    · omega
    · omega
  · exact iff_of_true rfl (Or.inr ⟨by omega, Or.inl (by omega)⟩)
  · refine iff_of_false (by decide) ?_
    rintro (h | ⟨_, h | ⟨_, h⟩⟩)
    · omega
    · omega
    · exact absurd h (h5 ▸ lt_irrefl _)
  · refine iff_of_false (by decide) ?_
    rintro (h | ⟨_, h | ⟨_, h⟩⟩)
    · omega
    · omega
    · exact absurd (lt_trans h h6) (lt_irrefl _)
  · refine iff_of_true rfl (Or.inr ⟨by omega, Or.inr ⟨by omega, ?_⟩⟩)
    rcases lt_trichotomy a.hlcDeviceId b.hlcDeviceId with h | h | h
    · exact absurd h h6
    · exact absurd h h5
    · exact h

theorem hlcLtRow_irrefl (a : StoredRow) : ¬ hlcLtRow a a := by
  rintro (h | ⟨_, h | ⟨_, h⟩⟩)
  · exact lt_irrefl _ h
  · exact lt_irrefl _ h
  · exact lt_irrefl _ h

theorem hlcLtRow_trans {a b c : StoredRow} (hab : hlcLtRow a b) (hbc : hlcLtRow b c) :
    hlcLtRow a c := by
  rcases hab with h | ⟨hw, h⟩ <;> rcases hbc with h' | ⟨hw', h'⟩
  · exact Or.inl (lt_trans h h')
  · exact Or.inl (hw' ▸ h)
  · exact Or.inl (hw ▸ h')
  · refine Or.inr ⟨hw.trans hw', ?_⟩
    rcases h with h | ⟨hc, h⟩ <;> rcases h' with h' | ⟨hc', h'⟩
    · exact Or.inl (lt_trans h h')
    · exact Or.inl (hc' ▸ h)
    · exact Or.inl (hc ▸ h')
    · exact Or.inr ⟨hc.trans hc', lt_trans h h'⟩

theorem compareHlc_ne_one_iff (a b : StoredRow) : ¬ compareHlc a b = 1 ↔ hlcLeRow a b := by
  rw [compareHlc_eq_one_iff]
  constructor
  · intro h
    rcases lt_trichotomy a.hlcTimestampMs b.hlcTimestampMs with hw | hw | hw
    · exact Or.inl (Or.inl hw)
    · rcases lt_trichotomy a.hlcCounter b.hlcCounter with hc | hc | hc
      · exact Or.inl (Or.inr ⟨hw, Or.inl hc⟩)
      · rcases lt_trichotomy a.hlcDeviceId b.hlcDeviceId with hd | hd | hd
        · exact Or.inl (Or.inr ⟨hw, Or.inr ⟨hc, hd⟩⟩)
        · exact Or.inr ⟨hw, hc, hd⟩
        · exact absurd (Or.inr ⟨hw.symm, Or.inr ⟨hc.symm, hd⟩⟩) h
      · exact absurd (Or.inr ⟨hw.symm, Or.inl hc⟩) h
    · exact absurd (Or.inl hw) h
  · rintro (h | ⟨hw, hc, hd⟩) hlt
    · exact hlcLtRow_irrefl a (hlcLtRow_trans h hlt)
    · rcases hlt with h' | ⟨_, h' | ⟨_, h'⟩⟩
      · omega
      · omega
      · exact absurd h' (hd ▸ lt_irrefl _)

theorem hlcLeRow_lt_trans {a b c : StoredRow} (hab : hlcLeRow a b) (hbc : hlcLtRow b c) :
    hlcLtRow a c := by
  rcases hab with h | ⟨hw, hc', hd⟩
  · exact hlcLtRow_trans h hbc
  · rcases hbc with h' | ⟨hw', h'⟩
    · exact Or.inl (hw ▸ h')
    · refine Or.inr ⟨hw.trans hw', ?_⟩
      rcases h' with h' | ⟨hcc, h'⟩
      · exact Or.inl (hc' ▸ h')
      · exact Or.inr ⟨hc'.trans hcc, hd ▸ h'⟩

theorem hlcLeRow_trans {a b c : StoredRow} (hab : hlcLeRow a b) (hbc : hlcLeRow b c) :
    hlcLeRow a c := by
  rcases hbc with h | ⟨hw, hc', hd⟩
  · exact Or.inl (hlcLeRow_lt_trans hab h)
  · rcases hab with h' | ⟨hw', hc'', hd'⟩
    · refine Or.inl ?_
      rcases h' with h' | ⟨hww, h'⟩
      · exact Or.inl (hw ▸ h')
      · refine Or.inr ⟨hww.trans hw, ?_⟩
        rcases h' with h' | ⟨hcc, h'⟩
        · exact Or.inl (hc' ▸ h')
        · exact Or.inr ⟨hcc.trans hc', hd ▸ h'⟩
    · exact Or.inr ⟨hw'.trans hw, hc''.trans hc', hd'.trans hd⟩

/-! ## The rows map (JavaScript `Map<string, AnyStoredRow>`)

Association list with JavaScript `Map` semantics: `get` returns the first
(unique) binding, `set` replaces in place when the key is present and
appends otherwise.  Iteration (`values()`) follows list order.
-/

/-- The in-memory adapter's `rows` map. -/
abbrev RowsMap := List (String × StoredRow)

/-- JavaScript `Map.get`. -/
def mapGet (m : RowsMap) (k : String) : Option StoredRow :=
  match m with
  | [] => none
  | (k', v) :: rest => if k' = k then some v else mapGet rest k

/-- JavaScript `Map.set` (replace in place, else append). -/
def mapSet (m : RowsMap) (k : String) (v : StoredRow) : RowsMap :=
  match m with
  | [] => [(k, v)]
  | (k', v') :: rest => if k' = k then (k', v) :: rest else (k', v') :: mapSet rest k v

theorem mapGet_mapSet_same (m : RowsMap) (k : String) (v : StoredRow) :
    mapGet (mapSet m k v) k = some v := by
  induction m with
  | nil => simp [mapGet, mapSet]
  | cons e rest ih =>
    obtain ⟨k', v'⟩ := e
    by_cases h : k' = k
    · simp [mapGet, mapSet, h]
    · simp [mapGet, mapSet, h, ih]

theorem mapGet_mapSet_other (m : RowsMap) (k k' : String) (v : StoredRow) (h : k ≠ k') :
    mapGet (mapSet m k v) k' = mapGet m k' := by
  induction m with
  | nil => simp [mapGet, mapSet, h]
  | cons e rest ih =>
    obtain ⟨k'', v''⟩ := e
    by_cases h2 : k'' = k
    · subst h2
      simp [mapGet, mapSet, h]
    · simp only [mapSet, if_neg h2, mapGet]
      by_cases h3 : k'' = k'
      · simp [h3]
      · simp [h3, ih]

theorem mapGet_mem {m : RowsMap} {k : String} {v : StoredRow} (h : mapGet m k = some v) :
    (k, v) ∈ m := by
  induction m with
  | nil => simp [mapGet] at h
  | cons e rest ih =>
    obtain ⟨k', v'⟩ := e
    simp only [mapGet] at h
    by_cases h2 : k' = k
    · rw [if_pos h2] at h
      injection h with h
      subst h2
      subst h
      exact List.mem_cons_self _ _
    · rw [if_neg h2] at h
      exact List.mem_cons_of_mem _ (ih h)

theorem mem_mapGet {m : RowsMap} {k : String} {v : StoredRow}
    (hnd : (m.map Prod.fst).Nodup) (h : (k, v) ∈ m) : mapGet m k = some v := by
  induction m with
  | nil => simp at h
  | cons e rest ih =>
    obtain ⟨k', v'⟩ := e
    simp only [List.map_cons, List.nodup_cons] at hnd
    simp only [mapGet]
    rcases List.mem_cons.mp h with heq | hmem
    · injection heq with hk hv
      subst hk
      subst hv
      rw [if_pos rfl]
    · have hk : k' ≠ k := by
        intro hkk
        subst hkk
        exact hnd.1 (List.mem_map.mpr ⟨(k', v), hmem, rfl⟩)
      rw [if_neg hk]
      exact ih hnd.2 hmem

theorem mapSet_cons_same (k : String) (v v' : StoredRow) (rest : RowsMap) :
    mapSet ((k, v') :: rest) k v = (k, v) :: rest := by
  simp [mapSet]

theorem mapSet_cons_other (k k' : String) (v v' : StoredRow) (rest : RowsMap)
    (h : k' ≠ k) : mapSet ((k', v') :: rest) k v = (k', v') :: mapSet rest k v := by
  simp [mapSet, h]

theorem mem_mapSet_keys (m : RowsMap) (k : String) (v : StoredRow) (x : String) :
    x ∈ (mapSet m k v).map Prod.fst ↔ x = k ∨ x ∈ m.map Prod.fst := by
  induction m with
  | nil => simp [mapSet]
  | cons e rest ih =>
    obtain ⟨k', v'⟩ := e
    by_cases h : k' = k
    · subst h
      rw [mapSet_cons_same]
      simp only [List.map_cons, List.mem_cons]
      tauto
    · rw [mapSet_cons_other _ _ _ _ _ h]
      simp only [List.map_cons, List.mem_cons, ih]
      tauto

theorem mapSet_nodup {m : RowsMap} {k : String} {v : StoredRow}
    (hnd : (m.map Prod.fst).Nodup) : ((mapSet m k v).map Prod.fst).Nodup := by
  induction m with
  | nil => simp [mapSet]
  | cons e rest ih =>
    obtain ⟨k', v'⟩ := e
    simp only [List.map_cons, List.nodup_cons] at hnd
    by_cases h : k' = k
    · subst h
      rw [mapSet_cons_same]
      simp only [List.map_cons, List.nodup_cons]
      exact hnd
    · rw [mapSet_cons_other _ _ _ _ _ h]
      simp only [List.map_cons, List.nodup_cons]
      refine ⟨?_, ih hnd.2⟩
      rw [mem_mapSet_keys]
      rintro (hk | hk)
      · exact h hk
      · exact hnd.1 hk

theorem mapSet_entry_mem {m : RowsMap} {k : String} {v : StoredRow} :
    ∀ e ∈ mapSet m k v, e = (k, v) ∨ e ∈ m := by
  induction m with
  | nil => simp [mapSet]
  | cons e rest ih =>
    obtain ⟨k', v'⟩ := e
    intro x hx
    by_cases h : k' = k
    · subst h
      rw [mapSet_cons_same] at hx
      rcases List.mem_cons.mp hx with hx | hx
      · exact Or.inl hx
      · exact Or.inr (List.mem_cons_of_mem _ hx)
    · rw [mapSet_cons_other _ _ _ _ _ h] at hx
      rcases List.mem_cons.mp hx with hx | hx
      · exact Or.inr (hx ▸ List.mem_cons_self _ _)
      · rcases ih x hx with hx | hx
        · exact Or.inl hx
        · exact Or.inr (List.mem_cons_of_mem _ hx)

/-! ## In-memory row storage adapter (src/core/storage/in-memory-adapter.ts)

`applyRows` clones the rows map, walks the batch over the working clone
(throwing on a namespace mismatch), and commits the clone to `this.rows`
only after the whole batch succeeded.  Deep clones are identities in the
pure model.
-/

/-- src/core/types.ts `RowApplyOutcome`. -/
structure RowApplyOutcome where
  written : Bool
  collectionId : String
  id : String
  parentId : Option String
  tombstone : Bool
  committedTimestampMs : Nat
  hlcTimestampMs : Nat
  hlcCounter : Nat
  hlcDeviceId : String
deriving Repr, DecidableEq

/-- The outcome record pushed for one incoming row
(src/core/storage/in-memory-adapter.ts lines 111-121). -/
def outcomeOfRow (written : Bool) (row : StoredRow) : RowApplyOutcome :=
  ⟨written, row.collectionId, row.id, row.parentId, row.tombstone,
    row.committedTimestampMs, row.hlcTimestampMs, row.hlcCounter, row.hlcDeviceId⟩

/-- The LWW check of `applyRows` for one incoming row against the working map
(src/core/storage/in-memory-adapter.ts line 105:
`!existing || compareHlc(row, existing) === 1`). -/
def rowWritten (working : RowsMap) (row : StoredRow) : Bool :=
  match mapGet working (rowKey row.collectionId row.id) with
  | none => true
  | some existing => compareHlc row existing == 1

/-- The `for (const row of rows)` loop of `applyRows`, on the working map. -/
def applyRowsGo (nspace : String) : RowsMap → List StoredRow →
    Except String (RowsMap × List RowApplyOutcome)
  | working, [] => .ok (working, [])
  | working, row :: rest =>
    if row.nspace ≠ nspace then
      .error "Namespace mismatch"
    else
      let written := rowWritten working row
      let working' :=
        if written then mapSet working (rowKey row.collectionId row.id) row else working
      match applyRowsGo nspace working' rest with
      | .error e => .error e
      | .ok (finalRows, outcomes) => .ok (finalRows, outcomeOfRow written row :: outcomes)

/-! ### Pending-operation log (src/core/storage/shared.ts) -/

/-- Discriminant of a pending operation (`"put"` / `"delete"`). -/
inductive PendingType where
  | put
  | delete
deriving Repr, DecidableEq

/-- src/core/types.ts `PendingOperation` (put and delete variants merged:
`data` is `some` payload for `put` and `none` for `delete`). -/
structure PendingOperation where
  sequence : Nat
  type : PendingType
  collectionId : String
  id : String
  parentId : Option String
  data : Option String
  txId : Option String
  schemaVersion : Option Nat
  hlcTimestampMs : Nat
  hlcCounter : Nat
  hlcDeviceId : String
deriving Repr, DecidableEq

/-- Stable insertion step for the `sort((a, b) => a.sequence - b.sequence)`
in `appendPendingOperations`. -/
def insertBySequence (op : PendingOperation) : List PendingOperation → List PendingOperation
  | [] => [op]
  | x :: xs => if x.sequence ≤ op.sequence then x :: insertBySequence op xs else op :: x :: xs

/-- Stable sort by `sequence` (JavaScript `Array.prototype.sort` is stable). -/
def sortBySequence : List PendingOperation → List PendingOperation
  | [] => []
  | x :: xs => insertBySequence x (sortBySequence xs)

/-- src/core/storage/shared.ts `appendPendingOperations` (clones are
identities; the early return on an empty batch leaves the list unsorted,
exactly as the source does). -/
def appendPendingOperations (destination : List PendingOperation)
    (operations : List PendingOperation) : List PendingOperation :=
  if operations.isEmpty then destination
  else sortBySequence (destination ++ operations)

/-- src/core/storage/shared.ts `getPendingOperations` (`slice(0, max(0, limit))`;
the `limit` is a `Nat` so the clamp is implicit). -/
def getPendingOperations (operations : List PendingOperation) (limit : Nat) :
    List PendingOperation :=
  operations.take limit

/-- src/core/storage/shared.ts `removePendingOperationsThrough`. -/
def removePendingOperationsThrough (operations : List PendingOperation)
    (sequenceInclusive : Nat) : List PendingOperation :=
  operations.filter (fun operation => sequenceInclusive < operation.sequence)

/-! ### Adapter state and methods -/

/-- State of one `InMemoryRowStorageAdapter` (the KV store is modelled
separately where needed). -/
structure AdapterState where
  nspace : String
  rows : RowsMap
  pendingOperations : List PendingOperation
deriving Repr, DecidableEq

/-- Method `InMemoryRowStorageAdapter.applyRows`: on success the working map is
committed (`this.rows = workingRows`); on a namespace mismatch the throw
leaves `this.rows` untouched. -/
def applyRows (st : AdapterState) (batch : List StoredRow) :
    AdapterState × Except String (List RowApplyOutcome) :=
  match applyRowsGo st.nspace st.rows batch with
  | .ok (workingRows, outcomes) => ({ st with rows := workingRows }, .ok outcomes)
  | .error e => (st, .error e)

/-- Method `InMemoryRowStorageAdapter.query`: walk `rows.values()` in insertion
order, filtering on collection, optional id, optional parent id, and
tombstones unless `includeTombstones`. -/
def queryRows (m : RowsMap) (collectionId : String) (idQ : Option String)
    (parentIdQ : Option String) (includeTombstones : Bool) : List StoredRow :=
  (m.map Prod.snd).filter fun row =>
    row.collectionId == collectionId &&
    (match idQ with
     | none => true
     | some i => row.id == i) &&
    (match parentIdQ with
     | none => true
     | some p => row.parentId == some p) &&
    (includeTombstones || !row.tombstone)

theorem hlcLtRow_le_trans {a b c : StoredRow} (hab : hlcLtRow a b) (hbc : hlcLeRow b c) :
    hlcLtRow a c := by
  rcases hbc with h | ⟨hw, hc', hd⟩
  · exact hlcLtRow_trans hab h
  · rcases hab with h' | ⟨hw', h'⟩
    · exact Or.inl (hw ▸ h')
    · refine Or.inr ⟨hw'.trans hw, ?_⟩
      rcases h' with h' | ⟨hcc, h'⟩
      · exact Or.inl (hc' ▸ h')
      · exact Or.inr ⟨hcc.trans hc', hd ▸ h'⟩

theorem hlcLeRow_refl (a : StoredRow) : hlcLeRow a a := Or.inr ⟨rfl, rfl, rfl⟩

/-! ### Structural lemmas about `applyRowsGo` -/

theorem applyRowsGo_cons (nspace : String) (working : RowsMap) (row : StoredRow)
    (rest : List StoredRow) :
    applyRowsGo nspace working (row :: rest) =
      if row.nspace ≠ nspace then .error "Namespace mismatch"
      else
        match applyRowsGo nspace
            (if rowWritten working row then
              mapSet working (rowKey row.collectionId row.id) row
            else working) rest with
        | .error e => .error e
        | .ok (finalRows, outcomes) =>
          .ok (finalRows, outcomeOfRow (rowWritten working row) row :: outcomes) := rfl

theorem applyRowsGo_append (nspace : String) :
    ∀ (l₁ l₂ : List StoredRow) (working : RowsMap),
      applyRowsGo nspace working (l₁ ++ l₂) =
        match applyRowsGo nspace working l₁ with
        | .error e => .error e
        | .ok (w₁, o₁) =>
          match applyRowsGo nspace w₁ l₂ with
          | .error e => .error e
          | .ok (w₂, o₂) => .ok (w₂, o₁ ++ o₂) := by
  intro l₁
  induction l₁ with
  | nil =>
    intro l₂ working
    simp only [List.nil_append, applyRowsGo]
    cases h : applyRowsGo nspace working l₂ with
    | error e => rfl
    | ok p =>
      obtain ⟨w₂, o₂⟩ := p
      simp
  | cons row l₁ ih =>
    intro l₂ working
    rw [List.cons_append, applyRowsGo_cons, applyRowsGo_cons]
    by_cases h : row.nspace ≠ nspace
    · rw [if_pos h, if_pos h]
    · rw [if_neg h, if_neg h]
      rw [ih]
      cases h1 : applyRowsGo nspace
          (if rowWritten working row then
            mapSet working (rowKey row.collectionId row.id) row
          else working) l₁ with
      | error e => rfl
      | ok p1 =>
        obtain ⟨w₁, o₁⟩ := p1
        dsimp only
        cases h2 : applyRowsGo nspace w₁ l₂ with
        | error e => rfl
        | ok p2 =>
          obtain ⟨w₂, o₂⟩ := p2
          simp

theorem applyRowsGo_ok_length (nspace : String) :
    ∀ (batch : List StoredRow) (working w : RowsMap) (outs : List RowApplyOutcome),
      applyRowsGo nspace working batch = .ok (w, outs) → outs.length = batch.length := by
  intro batch
  induction batch with
  | nil =>
    intro working w outs h
    simp only [applyRowsGo] at h
    injection h with h
    injection h with _ h2
    rw [← h2]
    rfl
  | cons row rest ih =>
    intro working w outs h
    rw [applyRowsGo_cons] at h
    by_cases hns : row.nspace ≠ nspace
    · rw [if_pos hns] at h
      exact absurd h (by simp)
    · rw [if_neg hns] at h
      cases hrec : applyRowsGo nspace
          (if rowWritten working row then
            mapSet working (rowKey row.collectionId row.id) row
          else working) rest with
      | error e => rw [hrec] at h; exact absurd h (by simp)
      | ok p =>
        obtain ⟨w', outs'⟩ := p
        rw [hrec] at h
        simp only at h
        injection h with h
        injection h with h1 h2
        rw [← h2, List.length_cons, List.length_cons, ih _ _ _ (by rw [hrec, h1])]

theorem applyRowsGo_mono (nspace : String) :
    ∀ (batch : List StoredRow) (working w : RowsMap) (outs : List RowApplyOutcome),
      applyRowsGo nspace working batch = .ok (w, outs) →
      ∀ (k : String) (r : StoredRow), mapGet working k = some r →
        ∃ r', mapGet w k = some r' ∧ (r' = r ∨ hlcLtRow r r') := by
  intro batch
  induction batch with
  | nil =>
    intro working w outs h k r hr
    simp only [applyRowsGo] at h
    injection h with h
    injection h with h1 _
    exact ⟨r, h1 ▸ hr, Or.inl rfl⟩
  | cons row rest ih =>
    intro working w outs h k r hr
    rw [applyRowsGo_cons] at h
    by_cases hns : row.nspace ≠ nspace
    · rw [if_pos hns] at h
      exact absurd h (by simp)
    · rw [if_neg hns] at h
      cases hrec : applyRowsGo nspace
          (if rowWritten working row then
            mapSet working (rowKey row.collectionId row.id) row
          else working) rest with
      | error e => rw [hrec] at h; exact absurd h (by simp)
      | ok p =>
        obtain ⟨w', outs'⟩ := p
        rw [hrec] at h
        simp only at h
        injection h with h
        injection h with h1 _
        subst h1
        cases hwr : rowWritten working row with
        | false =>
          rw [hwr] at hrec
          simp only [Bool.false_eq_true, if_false] at hrec
          exact ih working w' outs' hrec k r hr
        | true =>
          rw [hwr] at hrec
          simp only [if_true] at hrec
          by_cases hk : rowKey row.collectionId row.id = k
          · subst hk
            have hex : mapGet working (rowKey row.collectionId row.id) = some r := hr
            have hlt : hlcLtRow r row := by
              unfold rowWritten at hwr
              rw [hex] at hwr
              simp only [beq_iff_eq] at hwr
              exact (compareHlc_eq_one_iff row r).mp hwr
            obtain ⟨r', hget, hle⟩ := ih _ w' outs' hrec
              (rowKey row.collectionId row.id) row
              (mapGet_mapSet_same working _ row)
            refine ⟨r', hget, Or.inr ?_⟩
            rcases hle with h' | h'
            · rw [h']
              exact hlt
            · exact hlcLtRow_trans hlt h'
          · obtain ⟨r', hget, hle⟩ := ih _ w' outs' hrec k r
              (by rw [mapGet_mapSet_other _ _ _ _ (fun hh => hk hh)]; exact hr)
            exact ⟨r', hget, hle⟩

/-- Well-formedness of the rows map as the in-memory adapter maintains it:
every binding's key is `rowKey` of its row's identity, and keys are unique. -/
def WFRows (m : RowsMap) : Prop :=
  (∀ e ∈ m, e.1 = rowKey e.2.collectionId e.2.id) ∧ (m.map Prod.fst).Nodup

theorem applyRowsGo_wf (nspace : String) :
    ∀ (batch : List StoredRow) (working w : RowsMap) (outs : List RowApplyOutcome),
      applyRowsGo nspace working batch = .ok (w, outs) → WFRows working → WFRows w := by
  intro batch
  induction batch with
  | nil =>
    intro working w outs h hwf
    simp only [applyRowsGo] at h
    injection h with h
    injection h with h1 _
    exact h1 ▸ hwf
  | cons row rest ih =>
    intro working w outs h hwf
    rw [applyRowsGo_cons] at h
    by_cases hns : row.nspace ≠ nspace
    · rw [if_pos hns] at h
      exact absurd h (by simp)
    · rw [if_neg hns] at h
      cases hrec : applyRowsGo nspace
          (if rowWritten working row then
            mapSet working (rowKey row.collectionId row.id) row
          else working) rest with
      | error e => rw [hrec] at h; exact absurd h (by simp)
      | ok p =>
        obtain ⟨w', outs'⟩ := p
        rw [hrec] at h
        simp only at h
        injection h with h
        injection h with h1 _
        subst h1
        cases hwr : rowWritten working row with
        | false =>
          rw [hwr] at hrec
          simp only [Bool.false_eq_true, if_false] at hrec
          exact ih working w' outs' hrec hwf
        | true =>
          rw [hwr] at hrec
          simp only [if_true] at hrec
          refine ih _ w' outs' hrec ⟨?_, mapSet_nodup hwf.2⟩
          intro e he
          rcases mapSet_entry_mem e he with he | he
          · rw [he]
          · exact hwf.1 e he

theorem applyRowsGo_error_of_mismatch (nspace : String) :
    ∀ (batch : List StoredRow) (working : RowsMap),
      (∃ r ∈ batch, r.nspace ≠ nspace) →
      ∃ e, applyRowsGo nspace working batch = .error e := by
  intro batch
  induction batch with
  | nil =>
    intro working h
    obtain ⟨r, hr, _⟩ := h
    exact absurd hr (List.not_mem_nil r)
  | cons row rest ih =>
    intro working h
    rw [applyRowsGo_cons]
    by_cases hns : row.nspace ≠ nspace
    · rw [if_pos hns]
      exact ⟨"Namespace mismatch", rfl⟩
    · rw [if_neg hns]
      obtain ⟨r, hr, hrns⟩ := h
      rcases List.mem_cons.mp hr with rfl | hr
      · exact absurd hrns hns
      · obtain ⟨e, he⟩ := ih
          (if rowWritten working row then
            mapSet working (rowKey row.collectionId row.id) row
          else working) ⟨r, hr, hrns⟩
        rw [he]
        exact ⟨e, rfl⟩

theorem hlcEqRow_not_lt {a b : StoredRow} (heq : hlcEqRow a b) : ¬ hlcLtRow a b := by
  obtain ⟨hw, hc, hd⟩ := heq
  rintro (h | ⟨_, h | ⟨_, h⟩⟩)
  · omega
  · omega
  · exact absurd h (hd ▸ lt_irrefl _)

theorem rowWritten_true_iff (working : RowsMap) (row : StoredRow) :
    rowWritten working row = true ↔
      (mapGet working (rowKey row.collectionId row.id) = none ∨
        ∃ ex, mapGet working (rowKey row.collectionId row.id) = some ex ∧ hlcLtRow ex row) := by
  unfold rowWritten
  cases h : mapGet working (rowKey row.collectionId row.id) with
  | none => simp
  | some ex =>
    simp only [beq_iff_eq]
    constructor
    · intro hc
      exact Or.inr ⟨ex, rfl, (compareHlc_eq_one_iff row ex).mp hc⟩
    · rintro (h' | ⟨ex', hex', hlt⟩)
      · exact absurd h' (by simp)
      · injection hex' with hh
        subst hh
        exact (compareHlc_eq_one_iff row ex).mpr hlt

theorem rowWritten_false_occupant {working : RowsMap} {row : StoredRow}
    (h : rowWritten working row = false) :
    ∃ ex, mapGet working (rowKey row.collectionId row.id) = some ex ∧ hlcLeRow row ex := by
  unfold rowWritten at h
  cases hm : mapGet working (rowKey row.collectionId row.id) with
  | none => rw [hm] at h; simp at h
  | some ex =>
    rw [hm] at h
    simp only [beq_eq_false_iff_ne, ne_eq] at h
    exact ⟨ex, rfl, (compareHlc_ne_one_iff row ex).mp h⟩

theorem applyRowsGo_ok_of_prefix {nspace : String} {working w : RowsMap}
    {outs : List RowApplyOutcome} (l₁ l₂ : List StoredRow)
    (h : applyRowsGo nspace working (l₁ ++ l₂) = .ok (w, outs)) :
    ∃ w₁ o₁ o₂, applyRowsGo nspace working l₁ = .ok (w₁, o₁) ∧
      applyRowsGo nspace w₁ l₂ = .ok (w, o₂) ∧ outs = o₁ ++ o₂ := by
  rw [applyRowsGo_append] at h
  cases h1 : applyRowsGo nspace working l₁ with
  | error e => rw [h1] at h; exact absurd h (by simp)
  | ok p1 =>
    obtain ⟨w₁, o₁⟩ := p1
    rw [h1] at h
    dsimp only at h
    cases h2 : applyRowsGo nspace w₁ l₂ with
    | error e => rw [h2] at h; exact absurd h (by simp)
    | ok p2 =>
      obtain ⟨w₂, o₂⟩ := p2
      rw [h2] at h
      dsimp only at h
      injection h with h
      injection h with hw ho
      exact ⟨w₁, o₁, o₂, rfl, by rw [h2, hw], ho.symm⟩

theorem applyRowsGo_singleton (nspace : String) (working : RowsMap) (row : StoredRow)
    (hns : row.nspace = nspace) :
    applyRowsGo nspace working [row] =
      .ok ((if rowWritten working row then
          mapSet working (rowKey row.collectionId row.id) row
        else working), [outcomeOfRow (rowWritten working row) row]) := by
  rw [applyRowsGo_cons, if_neg (fun hh => hh hns)]
  rfl

theorem applyRowsGo_cons_ok_ns {nspace : String} {working : RowsMap} {row : StoredRow}
    {rest : List StoredRow} {w : RowsMap} {outs : List RowApplyOutcome}
    (h : applyRowsGo nspace working (row :: rest) = .ok (w, outs)) : row.nspace = nspace := by
  rw [applyRowsGo_cons] at h
  by_cases hns : row.nspace ≠ nspace
  · rw [if_pos hns] at h
    exact absurd h (by simp)
  · exact not_ne_iff.mp hns

theorem applyRowsGo_cons_ok {nspace : String} {working : RowsMap} {row : StoredRow}
    {rest : List StoredRow} {w : RowsMap} {outs : List RowApplyOutcome}
    (h : applyRowsGo nspace working (row :: rest) = .ok (w, outs)) :
    ∃ outs',
      applyRowsGo nspace
        (if rowWritten working row then
          mapSet working (rowKey row.collectionId row.id) row
        else working) rest = .ok (w, outs') ∧
      outs = outcomeOfRow (rowWritten working row) row :: outs' := by
  have hns := applyRowsGo_cons_ok_ns h
  rw [applyRowsGo_cons, if_neg (fun hh => hh hns)] at h
  cases hrec : applyRowsGo nspace
      (if rowWritten working row then
        mapSet working (rowKey row.collectionId row.id) row
      else working) rest with
  | error e => rw [hrec] at h; exact absurd h (by simp)
  | ok p =>
    obtain ⟨w', outs'⟩ := p
    rw [hrec] at h
    dsimp only at h
    injection h with h
    injection h with hw ho
    exact ⟨outs', by rw [hw], ho.symm⟩

/-- One step of the `applyRows` loop, located at index `i` of the batch:
the working state before the row is the run over `batch.take i`, the row's
outcome sits at index `i` of the outcome list, and the working state after
the row is the run over `batch.take (i+1)`. -/
theorem applyRowsGo_step {nspace : String} {rows0 w : RowsMap} {batch : List StoredRow}
    {outs : List RowApplyOutcome} {i : Nat} {row : StoredRow}
    (h : applyRowsGo nspace rows0 batch = .ok (w, outs))
    (hi : batch[i]? = some row) :
    ∃ wi oi,
      applyRowsGo nspace rows0 (batch.take i) = .ok (wi, oi) ∧ oi.length = i ∧
      row.nspace = nspace ∧
      applyRowsGo nspace rows0 (batch.take (i + 1)) =
        .ok ((if rowWritten wi row then
            mapSet wi (rowKey row.collectionId row.id) row
          else wi),
          oi ++ [outcomeOfRow (rowWritten wi row) row]) ∧
      outs[i]? = some (outcomeOfRow (rowWritten wi row) row) := by
  have hilt : i < batch.length := by
    by_contra hge
    rw [List.getElem?_eq_none (by omega)] at hi
    exact absurd hi (by simp)
  have hsplit : batch.take i ++ batch.drop i = batch := List.take_append_drop i batch
  obtain ⟨wi, oi, o₂, hpre, hsuf, houts⟩ :=
    applyRowsGo_ok_of_prefix (batch.take i) (batch.drop i) (by rw [hsplit]; exact h)
  have hrow : batch[i] = row := by
    rw [List.getElem?_eq_getElem hilt] at hi
    injection hi
  have hdrop : batch.drop i = row :: batch.drop (i + 1) := by
    rw [List.drop_eq_getElem_cons hilt, hrow]
  rw [hdrop] at hsuf
  have hns : row.nspace = nspace := applyRowsGo_cons_ok_ns hsuf
  have hoilen : oi.length = i := by
    have hl := applyRowsGo_ok_length nspace (batch.take i) rows0 wi oi hpre
    rw [List.length_take] at hl
    omega
  have htake1 : batch.take (i + 1) = batch.take i ++ [row] := by
    rw [List.take_succ, hi]
    rfl
  obtain ⟨o₃, hrec, ho₂⟩ := applyRowsGo_cons_ok hsuf
  refine ⟨wi, oi, hpre, hoilen, hns, ?_, ?_⟩
  · rw [htake1, applyRowsGo_append, hpre]
    dsimp only
    rw [applyRowsGo_singleton nspace wi row hns]
  · rw [houts, ho₂]
    rw [List.getElem?_append_right (by omega)]
    rw [hoilen]
    simp

/-! ## C10: namespace mismatch aborts the whole batch -/

/-- C10: if any row of an `applyRows` batch carries a namespace different from
the adapter's configured namespace, the call throws (`Namespace mismatch`) and
the adapter's stored state is exactly what it was before the call — no row of
the batch, not even one ordered before the mismatching row that would have won
LWW, is applied. -/
theorem applyRows_namespace_mismatch_atomic :
    ∀ (st : AdapterState) (batch : List StoredRow),
      (∃ r ∈ batch, r.nspace ≠ st.nspace) →
      (applyRows st batch).1 = st ∧ ∃ e, (applyRows st batch).2 = Except.error e := by
  intro st batch h
  obtain ⟨e, he⟩ := applyRowsGo_error_of_mismatch st.nspace batch st.rows h
  unfold applyRows
  rw [he]
  exact ⟨rfl, e, rfl⟩

/-- Witness for C10: a two-row batch whose first row would win LWW against an
empty store but whose second row is in a foreign namespace leaves the adapter
state untouched and errors. -/
theorem applyRows_namespace_mismatch_atomic_witness :
    (applyRows
        { nspace := "default", rows := [], pendingOperations := [] }
        [{ nspace := "default", collectionId := "c", id := "i", parentId := none,
           data := some "v", tombstone := false, txId := none, schemaVersion := none,
           committedTimestampMs := 5, hlcTimestampMs := 5, hlcCounter := 0,
           hlcDeviceId := "a" },
         { nspace := "other", collectionId := "c", id := "j", parentId := none,
           data := some "v", tombstone := false, txId := none, schemaVersion := none,
           committedTimestampMs := 6, hlcTimestampMs := 6, hlcCounter := 0,
           hlcDeviceId := "a" }]).1
      = { nspace := "default", rows := [], pendingOperations := [] } ∧
    ∃ e, (applyRows
        { nspace := "default", rows := [], pendingOperations := [] }
        [{ nspace := "default", collectionId := "c", id := "i", parentId := none,
           data := some "v", tombstone := false, txId := none, schemaVersion := none,
           committedTimestampMs := 5, hlcTimestampMs := 5, hlcCounter := 0,
           hlcDeviceId := "a" },
         { nspace := "other", collectionId := "c", id := "j", parentId := none,
           data := some "v", tombstone := false, txId := none, schemaVersion := none,
           committedTimestampMs := 6, hlcTimestampMs := 6, hlcCounter := 0,
           hlcDeviceId := "a" }]).2 = Except.error e :=
  applyRows_namespace_mismatch_atomic _ _
    ⟨{ nspace := "other", collectionId := "c", id := "j", parentId := none,
       data := some "v", tombstone := false, txId := none, schemaVersion := none,
       committedTimestampMs := 6, hlcTimestampMs := 6, hlcCounter := 0,
       hlcDeviceId := "a" },
     by simp, by decide⟩

/-! ## C1: per-row LWW outcomes of `applyRows` -/

theorem applyRows_ok_elim {st : AdapterState} {batch : List StoredRow} {st' : AdapterState}
    {outs : List RowApplyOutcome} (h : applyRows st batch = (st', Except.ok outs)) :
    applyRowsGo st.nspace st.rows batch = .ok (st'.rows, outs) := by
  unfold applyRows at h
  cases hgo : applyRowsGo st.nspace st.rows batch with
  | error e =>
    rw [hgo] at h
    injection h with _ h2
    exact absurd h2 (by simp)
  | ok p =>
    obtain ⟨w, o⟩ := p
    rw [hgo] at h
    injection h with h1 h2
    injection h2 with h2
    rw [← h1, h2]

/-- C1 (amended): for every batch accepted by `applyRows`, outcomes are
returned one per input row, in input order, echoing the row's identity, HLC
and tombstone fields; row `i` is marked written iff the working state built
from the rows before it holds no row under the adapter key
`rowKey (collectionId, id)` or holds one whose HLC triple is strictly smaller,
and a written row becomes the stored row under its key.  Consequently, when a
batch contains several rows with identical identity and identical HLC triple,
every occurrence after the first is not written (the first one is written iff
it wins against the row already stored under that key, which the original
claim's unconditional `the first occurrence is written` overlooks). -/
theorem applyRows_lww_per_row :
    ∀ (st : AdapterState) (batch : List StoredRow) (st' : AdapterState)
      (outs : List RowApplyOutcome),
      applyRows st batch = (st', Except.ok outs) →
      outs.length = batch.length ∧
      (∀ (i : Nat) (row : StoredRow) (outcome : RowApplyOutcome),
        batch[i]? = some row → outs[i]? = some outcome →
        outcome = outcomeOfRow outcome.written row ∧
        ∃ wi oi, applyRowsGo st.nspace st.rows (batch.take i) = Except.ok (wi, oi) ∧
          (outcome.written = true ↔
            (mapGet wi (rowKey row.collectionId row.id) = none ∨
              ∃ ex, mapGet wi (rowKey row.collectionId row.id) = some ex ∧
                hlcLtRow ex row)) ∧
          (outcome.written = true →
            ∃ wi1 oi1,
              applyRowsGo st.nspace st.rows (batch.take (i + 1)) = Except.ok (wi1, oi1) ∧
              mapGet wi1 (rowKey row.collectionId row.id) = some row)) ∧
      (∀ (i j : Nat) (ri rj : StoredRow) (oj : RowApplyOutcome),
        i < j → batch[i]? = some ri → batch[j]? = some rj → outs[j]? = some oj →
        ri.collectionId = rj.collectionId → ri.id = rj.id → hlcEqRow ri rj →
        oj.written = false) := by
  intro st batch st' outs h
  have hgo := applyRows_ok_elim h
  refine ⟨applyRowsGo_ok_length st.nspace batch st.rows st'.rows outs hgo, ?_, ?_⟩
  · intro i row outcome hgi hoi
    obtain ⟨wi, oi, hpre, hoilen, hns, hstep, hout⟩ := applyRowsGo_step hgo hgi
    rw [hoi] at hout
    injection hout with hout
    have hwr : outcome.written = rowWritten wi row := by rw [hout]; rfl
    refine ⟨by rw [hwr]; exact hout, wi, oi, hpre, ?_, ?_⟩
    · rw [hwr]
      exact rowWritten_true_iff wi row
    · intro htrue
      rw [hwr] at htrue
      rw [htrue] at hstep
      simp only [if_true] at hstep
      exact ⟨mapSet wi (rowKey row.collectionId row.id) row,
        oi ++ [outcomeOfRow true row], hstep,
        mapGet_mapSet_same wi (rowKey row.collectionId row.id) row⟩
  · intro i j ri rj oj hij hgi hgj hgoj hcol hid heq
    obtain ⟨wj, oj', hprej, hlenj, hnsj, hstepj, houtj⟩ := applyRowsGo_step hgo hgj
    rw [hgoj] at houtj
    injection houtj with houtj
    have hkey : rowKey rj.collectionId rj.id = rowKey ri.collectionId ri.id := by
      rw [hcol, hid]
    suffices hwrj : rowWritten wj rj = false by
      rw [houtj]
      exact hwrj
    obtain ⟨wi, oi, hprei, hleni, hnsi, hstepi, houti⟩ := applyRowsGo_step hgo hgi
    have hocc1 : ∃ occ,
        mapGet (if rowWritten wi ri then
          mapSet wi (rowKey ri.collectionId ri.id) ri else wi)
          (rowKey ri.collectionId ri.id) = some occ ∧ hlcLeRow ri occ := by
      cases hwi : rowWritten wi ri with
      | true =>
        simp only [if_true]
        exact ⟨ri, mapGet_mapSet_same _ _ _, hlcLeRow_refl ri⟩
      | false =>
        simp only [Bool.false_eq_true, if_false]
        exact rowWritten_false_occupant hwi
    obtain ⟨occ, hocc, hleocc⟩ := hocc1
    have hjsplit : j = (i + 1) + (j - (i + 1)) := by omega
    rw [hjsplit, List.take_add] at hprej
    obtain ⟨w₁, o₁, o₂, hp1, hp2, _⟩ :=
      applyRowsGo_ok_of_prefix _ _ hprej
    rw [hstepi] at hp1
    injection hp1 with hp1
    injection hp1 with hp1 _
    obtain ⟨occ₂, hocc₂, hle₂⟩ := applyRowsGo_mono st.nspace _ w₁ wj o₂ hp2
      (rowKey ri.collectionId ri.id) occ (by rw [← hp1]; exact hocc)
    have hleocc₂ : hlcLeRow occ occ₂ := by
      rcases hle₂ with h' | h'
      · rw [h']
        exact hlcLeRow_refl occ
      · exact Or.inl h'
    unfold rowWritten
    rw [hkey, hocc₂]
    simp only [beq_eq_false_iff_ne, ne_eq]
    intro hc
    have hlt : hlcLtRow occ₂ rj := (compareHlc_eq_one_iff rj occ₂).mp hc
    exact hlcEqRow_not_lt heq
      (hlcLeRow_lt_trans (hlcLeRow_trans hleocc hleocc₂) hlt)

/-- Concrete rows and states used to exercise the C1 theorems. -/
def c1Row : StoredRow :=
  { nspace := "default", collectionId := "c", id := "i", parentId := none,
    data := some "x", tombstone := false, txId := none, schemaVersion := none,
    committedTimestampMs := 1000, hlcTimestampMs := 1000, hlcCounter := 0,
    hlcDeviceId := "a" }

def c1OldRow : StoredRow :=
  { nspace := "default", collectionId := "c", id := "i", parentId := none,
    data := some "old", tombstone := false, txId := none, schemaVersion := none,
    committedTimestampMs := 9000, hlcTimestampMs := 9000, hlcCounter := 0,
    hlcDeviceId := "z" }

def c1SeededState : AdapterState :=
  { nspace := "default", rows := [(rowKey "c" "i", c1OldRow)], pendingOperations := [] }

def c1EmptyState : AdapterState :=
  { nspace := "default", rows := [], pendingOperations := [] }

/-- Counterexample to C1 as stated: a batch of two identical rows whose HLC
triple is smaller than the row already stored under the same key produces
`written = false` for the first occurrence as well — the claim's assertion
that the first of two identical occurrences `is written` fails. -/
theorem applyRows_dup_first_occurrence_not_written :
    (applyRows c1SeededState [c1Row, c1Row]).2
      = Except.ok [outcomeOfRow false c1Row, outcomeOfRow false c1Row] := by
  rfl

/-- Witness for C1 (amended): applying a batch of two rows with identical
identity and identical HLC triple to an empty adapter exercises the theorem;
the second occurrence reports `written = false` by the duplicate clause. -/
theorem applyRows_lww_per_row_witness :
    ∃ st' outs,
      applyRows c1EmptyState [c1Row, c1Row] = (st', Except.ok outs) ∧
      outs.length = 2 ∧
      (∀ oj, outs[1]? = some oj → oj.written = false) := by
  refine ⟨AdapterState.mk "default" [((rowKey "c" "i"), c1Row)] [],
    [outcomeOfRow true c1Row, outcomeOfRow false c1Row], rfl, rfl, ?_⟩
  intro oj hoj
  have h := applyRows_lww_per_row c1EmptyState [c1Row, c1Row]
    (AdapterState.mk "default" [((rowKey "c" "i"), c1Row)] [])
    [outcomeOfRow true c1Row, outcomeOfRow false c1Row] rfl
  exact h.2.2 0 1 c1Row c1Row oj (by omega) rfl rfl hoj rfl rfl ⟨rfl, rfl, rfl⟩

/-! ## Storage engine (src/core/engine.ts)

All public operations run on the engine's serial queue, so each is a pure
function of the engine state at entry.  Invalidation-hint emission does not
affect the stored state and is modelled separately (see the listener loop
for C9).
-/

/-- Discriminant `LocalAtomicIntent.kind` (`"put" | "delete"`). -/
inductive IntentKind where
  | put
  | delete
deriving Repr, DecidableEq

/-- src/core/engine.ts `LocalAtomicIntent`. -/
structure LocalAtomicIntent where
  kind : IntentKind
  collectionId : String
  id : String
  parentId : Option String
  data : Option String
  txId : Option String
  schemaVersion : Option Nat
deriving Repr, DecidableEq

/-- src/core/types.ts `StorageAtomicOperation`.  In `put`, the `parentId`
option distinguishes absent (`none`), explicit `null` (`some none`) and an
explicit string (`some (some s)`). -/
inductive StorageAtomicOperation where
  | put (collectionId id : String) (data : String) (parentId : Option (Option String))
      (txId : Option String) (schemaVersion : Option Nat)
  | delete (collectionId id : String)
deriving Repr, DecidableEq

/-- src/core/engine.ts `queryRow`: `adapter.query({collectionId, id,
includeTombstones})` followed by `rows[0]`. -/
def queryRowFirst (m : RowsMap) (collectionId id : String) (includeTombstones : Bool) :
    Option StoredRow :=
  (queryRows m collectionId (some id) none includeTombstones).head?

/-- src/core/engine.ts `resolveAtomicIntents`.  The queries do not mutate the
adapter, so the sequential loop is a map over the operations. -/
def resolveAtomicIntents (rows : RowsMap) (operations : List StorageAtomicOperation) :
    List LocalAtomicIntent :=
  operations.map fun operation =>
    match operation with
    | .put collectionId id data parentIdOpt txId schemaVersion =>
      let parentId :=
        match parentIdOpt with
        | some v => v
        | none =>
          match queryRowFirst rows collectionId id true with
          | some existing => existing.parentId
          | none => none
      ⟨IntentKind.put, collectionId, id, parentId, some data, txId, schemaVersion⟩
    | .delete collectionId id =>
      let parentId :=
        match queryRowFirst rows collectionId id true with
        | some existing => existing.parentId
        | none => none
      ⟨IntentKind.delete, collectionId, id, parentId, none, none, none⟩

/-- The row construction of `applyLocalIntents` (src/core/engine.ts lines
209-228): one adapter row per intent, stamped with the clock at the same
index (`clocks[index]!` requires as many clocks as intents). -/
def buildLocalRows (nspace : String) (intents : List LocalAtomicIntent)
    (clocks : List ParsedClock) (defaultTxID : String) : List StoredRow :=
  (intents.zip clocks).map fun p =>
    { nspace := nspace
      collectionId := p.1.collectionId
      id := p.1.id
      parentId := p.1.parentId
      data := match p.1.kind with
        | IntentKind.put => p.1.data
        | IntentKind.delete => none
      tombstone := p.1.kind == IntentKind.delete
      txId := some (p.1.txId.getD defaultTxID)
      schemaVersion := p.1.schemaVersion
      committedTimestampMs := p.2.wallMs
      hlcTimestampMs := p.2.wallMs
      hlcCounter := p.2.counter
      hlcDeviceId := p.2.nodeId }

/-- src/core/types.ts `StorageWriteResult`. -/
structure StorageWriteResult where
  collectionId : String
  id : String
  parentId : Option String
  tombstone : Bool
  committedTimestampMs : Nat
  hlcTimestampMs : Nat
  hlcCounter : Nat
  hlcDeviceId : String
  applied : Bool
deriving Repr, DecidableEq

/-- src/core/engine.ts `buildWriteResult` (from an adapter outcome). -/
def buildWriteResult (outcome : RowApplyOutcome) : StorageWriteResult :=
  ⟨outcome.collectionId, outcome.id, outcome.parentId, outcome.tombstone,
    outcome.committedTimestampMs, outcome.hlcTimestampMs, outcome.hlcCounter,
    outcome.hlcDeviceId, outcome.written⟩

/-- The pending entry built for one written row (src/core/engine.ts lines
250-277): a `delete` entry for a tombstone row, else a `put` entry, both
carrying the row's HLC triple. -/
def pendingOpOfRow (sequence : Nat) (row : StoredRow) : PendingOperation :=
  if row.tombstone then
    ⟨sequence, PendingType.delete, row.collectionId, row.id, row.parentId, none,
      row.txId, row.schemaVersion, row.hlcTimestampMs, row.hlcCounter, row.hlcDeviceId⟩
  else
    ⟨sequence, PendingType.put, row.collectionId, row.id, row.parentId, row.data,
      row.txId, row.schemaVersion, row.hlcTimestampMs, row.hlcCounter, row.hlcDeviceId⟩

/-- The outcome loop of `applyLocalIntents` restricted to the pending log:
one entry per written outcome, consuming `nextPendingSequence++` only for
written rows. -/
def buildPendingOpsGo : List (RowApplyOutcome × StoredRow) → Nat → List PendingOperation
  | [], _ => []
  | (outcome, row) :: rest, sequence =>
    if outcome.written then
      pendingOpOfRow sequence row :: buildPendingOpsGo rest (sequence + 1)
    else
      buildPendingOpsGo rest sequence

/-- Engine state: the bound adapter, the configured namespace and the
in-process pending-sequence counter (starts at 1). -/
structure EngineState where
  adapter : AdapterState
  nspace : String
  nextPendingSequence : Nat
deriving Repr, DecidableEq

/-- src/core/engine.ts `applyLocalIntents`, with the clock batch passed in
(the source obtains it from `clock.nextBatch(intents.length)` immediately
before building the rows).  Event emission has no effect on the state. -/
def applyLocalIntents (st : EngineState) (intents : List LocalAtomicIntent)
    (clocks : List ParsedClock) (defaultTxID : String) :
    EngineState × Except String (List StorageWriteResult) :=
  if intents.isEmpty then (st, .ok [])
  else
    let rows := buildLocalRows st.nspace intents clocks defaultTxID
    match applyRows st.adapter rows with
    | (adapter', .error e) => ({ st with adapter := adapter' }, .error e)
    | (adapter', .ok outcomes) =>
      let results := outcomes.map buildWriteResult
      let pendingOps := buildPendingOpsGo (outcomes.zip rows) st.nextPendingSequence
      let adapter'' := { adapter' with
        pendingOperations := appendPendingOperations adapter'.pendingOperations pendingOps }
      (⟨adapter'', st.nspace, st.nextPendingSequence + pendingOps.length⟩, .ok results)

/-- src/core/engine.ts `asLiveRow`. -/
def asLiveRow (row : Option StoredRow) : Option StoredRow :=
  match row with
  | none => none
  | some r => if r.tombstone then none else some r

/-- src/core/engine.ts `asLiveRows`. -/
def asLiveRows (rows : List StoredRow) : List StoredRow :=
  rows.filter (fun row => !row.tombstone)

/-- Engine `get`: `queryRow(collectionId, id, includeTombstones := true)`
filtered through `asLiveRow`. -/
def engineGet (st : AdapterState) (collectionId id : String) : Option StoredRow :=
  asLiveRow (queryRowFirst st.rows collectionId id true)

/-- Engine `getAll`: adapter query with `includeTombstones := false`, then
`asLiveRows`. -/
def engineGetAll (st : AdapterState) (collectionId : String) : List StoredRow :=
  asLiveRows (queryRows st.rows collectionId none none false)

/-- Engine `getAllWithParent`. -/
def engineGetAllWithParent (st : AdapterState) (collectionId parentId : String) :
    List StoredRow :=
  asLiveRows (queryRows st.rows collectionId none (some parentId) false)

/-! ### C2: pending log mirrors written local rows -/

theorem pendingOpOfRow_triple (sequence : Nat) (row : StoredRow) :
    ((pendingOpOfRow sequence row).hlcTimestampMs, (pendingOpOfRow sequence row).hlcCounter,
      (pendingOpOfRow sequence row).hlcDeviceId)
      = (row.hlcTimestampMs, row.hlcCounter, row.hlcDeviceId) := by
  unfold pendingOpOfRow
  split_ifs <;> rfl

theorem pendingOpOfRow_sequence (sequence : Nat) (row : StoredRow) :
    (pendingOpOfRow sequence row).sequence = sequence := by
  unfold pendingOpOfRow
  split_ifs <;> rfl

theorem buildPendingOpsGo_length :
    ∀ (l : List (RowApplyOutcome × StoredRow)) (sequence : Nat),
      (buildPendingOpsGo l sequence).length
        = (l.filter (fun p => p.1.written)).length := by
  intro l
  induction l with
  | nil => intro sequence; rfl
  | cons p rest ih =>
    intro sequence
    obtain ⟨outcome, row⟩ := p
    by_cases hw : outcome.written = true
    · simp [buildPendingOpsGo, hw, ih]
    · simp [buildPendingOpsGo, hw, ih]

theorem buildPendingOpsGo_triples :
    ∀ (l : List (RowApplyOutcome × StoredRow)) (sequence : Nat),
      (buildPendingOpsGo l sequence).map
          (fun p => (p.hlcTimestampMs, p.hlcCounter, p.hlcDeviceId))
        = (l.filter (fun p => p.1.written)).map
            (fun p => (p.2.hlcTimestampMs, p.2.hlcCounter, p.2.hlcDeviceId)) := by
  intro l
  induction l with
  | nil => intro sequence; rfl
  | cons p rest ih =>
    intro sequence
    obtain ⟨outcome, row⟩ := p
    by_cases hw : outcome.written = true
    · simp only [buildPendingOpsGo, hw, if_true, List.map_cons, List.filter_cons, ih]
      rw [pendingOpOfRow_triple]
    · simp [buildPendingOpsGo, hw, ih]

theorem buildPendingOpsGo_sequences :
    ∀ (l : List (RowApplyOutcome × StoredRow)) (sequence : Nat),
      (buildPendingOpsGo l sequence).map (fun p => p.sequence)
        = List.range' sequence (buildPendingOpsGo l sequence).length := by
  intro l
  induction l with
  | nil => intro sequence; rfl
  | cons p rest ih =>
    intro sequence
    obtain ⟨outcome, row⟩ := p
    by_cases hw : outcome.written = true
    · simp only [buildPendingOpsGo, hw, if_true, List.map_cons, List.length_cons,
        List.range'_succ, pendingOpOfRow_sequence, ih]
    · simp [buildPendingOpsGo, hw, ih]

theorem filter_written_zip_length (l : List (RowApplyOutcome × StoredRow)) :
    (l.filter (fun p => p.1.written)).length
      = ((l.map Prod.fst).filter (fun o => o.written)).length := by
  induction l with
  | nil => rfl
  | cons x xs ih =>
    by_cases h : x.1.written = true
    · simp [List.filter_cons, h, ih]
    · simp [List.filter_cons, h, ih]

theorem applyRows_preserves_rest {st : AdapterState} {batch : List StoredRow}
    {st2 : AdapterState} {res : Except String (List RowApplyOutcome)}
    (h : applyRows st batch = (st2, res)) :
    st2.nspace = st.nspace ∧ st2.pendingOperations = st.pendingOperations := by
  unfold applyRows at h
  cases hgo : applyRowsGo st.nspace st.rows batch with
  | error e =>
    rw [hgo] at h
    injection h with h1 _
    rw [← h1]
    exact ⟨rfl, rfl⟩
  | ok p =>
    obtain ⟨w, o⟩ := p
    rw [hgo] at h
    injection h with h1 _
    rw [← h1]
    exact ⟨rfl, rfl⟩

/-- C2: for every local write batch run through `applyLocalIntents` (the common
path of `put`, `delete`, `deleteAllWithParent` and `batchLocal`), with one
clock per intent: the returned `WriteResult`s mirror the adapter outcomes one
to one (`applied = written`); exactly one pending operation is appended per
written row, in apply order, carrying the identical HLC triple as the applied
row and consecutive sequences from the engine counter; rows with
`written = false` append nothing. -/
theorem applyLocalIntents_pending_mirror :
    ∀ (st : EngineState) (intents : List LocalAtomicIntent) (clocks : List ParsedClock)
      (defaultTxID : String) (st' : EngineState) (results : List StorageWriteResult),
      clocks.length = intents.length →
      applyLocalIntents st intents clocks defaultTxID = (st', Except.ok results) →
      ∃ outcomes,
        applyRowsGo st.adapter.nspace st.adapter.rows
            (buildLocalRows st.nspace intents clocks defaultTxID)
          = Except.ok (st'.adapter.rows, outcomes) ∧
        results = outcomes.map buildWriteResult ∧
        results.map (fun r => r.applied) = outcomes.map (fun o => o.written) ∧
        ∃ appended,
          st'.adapter.pendingOperations
            = appendPendingOperations st.adapter.pendingOperations appended ∧
          appended.length = (outcomes.filter (fun o => o.written)).length ∧
          appended.map (fun p => (p.hlcTimestampMs, p.hlcCounter, p.hlcDeviceId))
            = ((outcomes.zip (buildLocalRows st.nspace intents clocks defaultTxID)).filter
                  (fun p => p.1.written)).map
                (fun p => (p.2.hlcTimestampMs, p.2.hlcCounter, p.2.hlcDeviceId)) ∧
          appended.map (fun p => p.sequence)
            = List.range' st.nextPendingSequence appended.length ∧
          st'.nextPendingSequence = st.nextPendingSequence + appended.length := by
  intro st intents clocks defaultTxID st' results hlen h
  unfold applyLocalIntents at h
  by_cases hemp : intents.isEmpty
  · rw [if_pos hemp] at h
    injection h with h1 h2
    injection h2 with h2
    have hnil : intents = [] := List.isEmpty_iff.mp hemp
    subst hnil
    rw [← h1, ← h2]
    refine ⟨[], ?_, rfl, rfl, [], ?_, rfl, ?_, rfl, rfl⟩
    · rfl
    · unfold appendPendingOperations
      rfl
    · rfl
  · rw [if_neg hemp] at h
    dsimp only at h
    rcases happ : applyRows st.adapter (buildLocalRows st.nspace intents clocks defaultTxID)
      with ⟨adapter', res⟩
    rw [happ] at h
    cases res with
    | error e => exact absurd h (by simp)
    | ok outcomes =>
      simp only at h
      injection h with h1 h2
      injection h2 with h2
      have hgo := applyRows_ok_elim happ
      obtain ⟨hns, hpend⟩ := applyRows_preserves_rest happ
      refine ⟨outcomes, ?_, h2.symm, ?_, ?_⟩
      · rw [← h1]
        exact hgo
      · rw [← h2]
        simp [buildWriteResult]
      · refine ⟨buildPendingOpsGo
          (outcomes.zip (buildLocalRows st.nspace intents clocks defaultTxID))
          st.nextPendingSequence, ?_, ?_, ?_, ?_, ?_⟩
        · rw [← h1, hpend]
        · have hzip : (outcomes.zip
              (buildLocalRows st.nspace intents clocks defaultTxID)).map Prod.fst
              = outcomes := by
            apply List.map_fst_zip
            rw [applyRowsGo_ok_length st.adapter.nspace _ _ _ _ hgo]
          rw [buildPendingOpsGo_length, filter_written_zip_length, hzip]
        · exact buildPendingOpsGo_triples _ _
        · rw [buildPendingOpsGo_sequences]
        · rw [← h1]

/-- Concrete input for the C2 witness. -/
def c2Intent : LocalAtomicIntent :=
  ⟨IntentKind.put, "c", "i", none, some "x", none, none⟩

def c2Clock : ParsedClock := ⟨1000, 0, "a"⟩

def c2St : EngineState := ⟨⟨"default", [], []⟩, "default", 1⟩

def c2Row : StoredRow :=
  { nspace := "default", collectionId := "c", id := "i", parentId := none,
    data := some "x", tombstone := false, txId := some "tx", schemaVersion := none,
    committedTimestampMs := 1000, hlcTimestampMs := 1000, hlcCounter := 0,
    hlcDeviceId := "a" }

def c2StAfter : EngineState :=
  ⟨⟨"default", [((rowKey "c" "i"), c2Row)], [pendingOpOfRow 1 c2Row]⟩, "default", 2⟩

/-- Witness for C2: one `put` intent applied to an empty adapter. -/
theorem applyLocalIntents_pending_mirror_witness :
    ∃ outcomes,
      applyRowsGo c2St.adapter.nspace c2St.adapter.rows
          (buildLocalRows c2St.nspace [c2Intent] [c2Clock] "tx")
        = Except.ok (c2StAfter.adapter.rows, outcomes) := by
  obtain ⟨outcomes, h1, _⟩ := applyLocalIntents_pending_mirror c2St [c2Intent] [c2Clock]
    "tx" c2StAfter [buildWriteResult (outcomeOfRow true c2Row)] (by decide) (by rfl)
  exact ⟨outcomes, h1⟩

/-! ### C5: parent-id resolution of `put` -/

theorem head?_filter_eq_find? {α : Type} (p : α → Bool) (l : List α) :
    (l.filter p).head? = l.find? p := by
  induction l with
  | nil => rfl
  | cons x xs ih =>
    by_cases h : p x
    · simp [List.filter_cons, List.find?_cons, h]
    · simp [List.filter_cons, List.find?_cons, h, ih]

theorem queryRowFirst_eq_find? (m : RowsMap) (collectionId id : String) :
    queryRowFirst m collectionId id true
      = (m.map Prod.snd).find? (fun r => r.collectionId == collectionId && r.id == id) := by
  unfold queryRowFirst queryRows
  rw [head?_filter_eq_find?]
  congr 1
  funext r
  simp

/-- C5: for a `put` through the engine, the row built for the adapter carries
the `parentId` resolved as follows: an explicit option value (including
explicit `null`) is used as given; an absent option falls back to the parent
id of the first stored row with that collection and id — searched including
tombstoned rows — or `null` when there is none. -/
theorem put_parentId_resolution :
    ∀ (rows : RowsMap) (collectionId id data : String)
      (parentIdOpt : Option (Option String)) (txId : Option String)
      (schemaVersion : Option Nat) (clock : ParsedClock) (nspace defaultTxID : String),
      (buildLocalRows nspace
          (resolveAtomicIntents rows
            [StorageAtomicOperation.put collectionId id data parentIdOpt txId schemaVersion])
          [clock] defaultTxID).map (fun row => row.parentId)
        = [match parentIdOpt with
           | some v => v
           | none =>
             match (rows.map Prod.snd).find?
                 (fun r => r.collectionId == collectionId && r.id == id) with
             | some existing => existing.parentId
             | none => none] := by
  intro rows collectionId id data parentIdOpt txId schemaVersion clock nspace defaultTxID
  cases parentIdOpt with
  | some v => rfl
  | none =>
    simp only [resolveAtomicIntents, buildLocalRows, List.map_cons, List.map_nil,
      List.zip_cons_cons, List.zip_nil_right]
    rw [← queryRowFirst_eq_find?]

/-! ### C6: tombstone invisibility through engine reads -/

theorem mem_values_of_filter_head? {m : RowsMap} {p : StoredRow → Bool} {r : StoredRow}
    (h : ((m.map Prod.snd).filter p).head? = some r) :
    r ∈ m.map Prod.snd ∧ p r = true := by
  have hmem : r ∈ (m.map Prod.snd).filter p := by
    apply List.mem_of_mem_head?
    rw [h]
    rfl
  exact ⟨(List.mem_filter.mp hmem).1, (List.mem_filter.mp hmem).2⟩

theorem queryRowFirst_some_of_wf {m : RowsMap} (hwf : WFRows m) {collectionId id : String}
    {r : StoredRow} (h : queryRowFirst m collectionId id true = some r) :
    mapGet m (rowKey collectionId id) = some r ∧
      r.collectionId = collectionId ∧ r.id = id := by
  unfold queryRowFirst queryRows at h
  obtain ⟨hmem, hp⟩ := mem_values_of_filter_head? h
  simp only [Bool.and_true, Bool.true_or, Bool.and_eq_true, beq_iff_eq] at hp
  obtain ⟨hc, hi⟩ := hp
  obtain ⟨⟨k, r'⟩, hkr, hr⟩ := List.mem_map.mp hmem
  have hrr : r' = r := hr
  subst hrr
  have hk : k = rowKey r'.collectionId r'.id := hwf.1 (k, r') hkr
  rw [hc, hi] at hk
  subst hk
  exact ⟨mem_mapGet hwf.2 hkr, hc, hi⟩

/-- C6: engine reads never expose tombstones, and a stored tombstone stays
invisible until replaced through LWW.  Precisely: (i) any row returned by
`get`, `getAll` or `getAllWithParent` has `tombstone = false`; (ii) when the
row stored under `rowKey (c, i)` is a tombstone (the state after a `delete`
won LWW), `get c i` returns nothing and the tombstone row is omitted from
`getAll` / `getAllWithParent`; (iii) if after a further `applyRows` batch
`get c i` returns a row, that row is live and its HLC triple is strictly
greater than the tombstone's — only a strictly greater non-tombstone write
makes the row visible again. -/
theorem engine_reads_tombstone_invisible :
    (∀ (st : AdapterState) (c i : String) (r : StoredRow),
      engineGet st c i = some r → r.tombstone = false) ∧
    (∀ (st : AdapterState) (c : String) (r : StoredRow),
      r ∈ engineGetAll st c → r.tombstone = false) ∧
    (∀ (st : AdapterState) (c p : String) (r : StoredRow),
      r ∈ engineGetAllWithParent st c p → r.tombstone = false) ∧
    (∀ (st : AdapterState) (c i : String) (r : StoredRow),
      WFRows st.rows → mapGet st.rows (rowKey c i) = some r →
      r.collectionId = c → r.id = i → r.tombstone = true →
      engineGet st c i = none ∧ r ∉ engineGetAll st c ∧
        ∀ p, r ∉ engineGetAllWithParent st c p) ∧
    (∀ (st : AdapterState) (batch : List StoredRow) (st' : AdapterState)
      (outs : List RowApplyOutcome) (c i : String) (r r' : StoredRow),
      WFRows st.rows → mapGet st.rows (rowKey c i) = some r → r.tombstone = true →
      applyRows st batch = (st', Except.ok outs) →
      engineGet st' c i = some r' →
      r'.tombstone = false ∧ hlcLtRow r r') := by
  have hget : ∀ (st : AdapterState) (c i : String) (r : StoredRow),
      engineGet st c i = some r →
      queryRowFirst st.rows c i true = some r ∧ r.tombstone = false := by
    intro st c i r h
    unfold engineGet asLiveRow at h
    cases hq : queryRowFirst st.rows c i true with
    | none => rw [hq] at h; exact absurd h (by simp)
    | some r0 =>
      rw [hq] at h
      dsimp only at h
      by_cases ht : r0.tombstone = true
      · rw [if_pos ht] at h
        exact absurd h (by simp)
      · rw [if_neg ht] at h
        injection h with h
        subst h
        exact ⟨rfl, by simpa using ht⟩
  have hall : ∀ (st : AdapterState) (c : String) (r : StoredRow),
      r ∈ engineGetAll st c → r.tombstone = false := by
    intro st c r h
    unfold engineGetAll asLiveRows at h
    have := (List.mem_filter.mp h).2
    simpa using this
  have hallp : ∀ (st : AdapterState) (c p : String) (r : StoredRow),
      r ∈ engineGetAllWithParent st c p → r.tombstone = false := by
    intro st c p r h
    unfold engineGetAllWithParent asLiveRows at h
    have := (List.mem_filter.mp h).2
    simpa using this
  refine ⟨fun st c i r h => (hget st c i r h).2, hall, hallp, ?_, ?_⟩
  · intro st c i r hwf hm hc hi ht
    refine ⟨?_, ?_, ?_⟩
    · unfold engineGet asLiveRow
      cases hq : queryRowFirst st.rows c i true with
      | none => rfl
      | some r0 =>
        obtain ⟨hm0, _, _⟩ := queryRowFirst_some_of_wf hwf hq
        rw [hm] at hm0
        injection hm0 with hm0
        dsimp only
        rw [if_pos (hm0 ▸ ht)]
    · intro hmem
      rw [hall st c r hmem] at ht
      exact absurd ht (by simp)
    · intro p hmem
      rw [hallp st c p r hmem] at ht
      exact absurd ht (by simp)
  · intro st batch st' outs c i r r' hwf hm ht happ hq
    have hgo := applyRows_ok_elim happ
    have hwf' : WFRows st'.rows := applyRowsGo_wf st.nspace batch st.rows st'.rows outs hgo hwf
    obtain ⟨hq', htf⟩ := hget st' c i r' hq
    obtain ⟨hm', _, _⟩ := queryRowFirst_some_of_wf hwf' hq'
    obtain ⟨r₀, hr₀, hcase⟩ :=
      applyRowsGo_mono st.nspace batch st.rows st'.rows outs hgo (rowKey c i) r hm
    rw [hm'] at hr₀
    injection hr₀ with hr₀
    refine ⟨htf, ?_⟩
    rcases hcase with hcase | hcase
    · exfalso
      rw [hr₀, hcase] at htf
      rw [ht] at htf
      exact absurd htf (by simp)
    · rw [hr₀]
      exact hcase

/-- Concrete rows for the C6 witness: a stored tombstone replaced by a newer
live row. -/
def c6Tomb : StoredRow :=
  { nspace := "default", collectionId := "c", id := "i", parentId := none,
    data := none, tombstone := true, txId := none, schemaVersion := none,
    committedTimestampMs := 1000, hlcTimestampMs := 1000, hlcCounter := 0,
    hlcDeviceId := "a" }

def c6Live : StoredRow :=
  { nspace := "default", collectionId := "c", id := "i", parentId := none,
    data := some "v", tombstone := false, txId := none, schemaVersion := none,
    committedTimestampMs := 2000, hlcTimestampMs := 2000, hlcCounter := 0,
    hlcDeviceId := "a" }

def c6St : AdapterState :=
  ⟨"default", [((rowKey "c" "i"), c6Tomb)], []⟩

/-- Witness for C6: with the tombstone stored, a newer live write makes the
row visible with a strictly greater HLC. -/
theorem engine_reads_tombstone_invisible_witness :
    c6Live.tombstone = false ∧ hlcLtRow c6Tomb c6Live :=
  engine_reads_tombstone_invisible.2.2.2.2 c6St [c6Live]
    (AdapterState.mk "default" [((rowKey "c" "i"), c6Live)] [])
    [outcomeOfRow true c6Live] "c" "i" c6Tomb c6Live (by unfold WFRows; decide)
    (by rfl) (by rfl) (by rfl) (by rfl)

/-! ## C9: listener notification loops

src/core/engine.ts `notify` (lines 126-139) and the connection manager's
driver callback both run `for (const listener of listeners) listener(event)`
with no try/catch around the call.  A listener is modelled by whether it
throws when invoked with the event; the loop reports how many listeners were
invoked and whether an exception escaped (aborting the loop).
-/

/-- The notification loop shared by `notify` and `createConnectionManager`:
invoke listeners in order; a throw aborts the iteration and propagates. -/
def runListenerLoop : List Bool → Nat × Bool
  | [] => (0, false)
  | throws :: rest =>
    if throws then (1, true)
    else
      let r := runListenerLoop rest
      (r.1 + 1, r.2)

/-- C9 (code divergence): with two subscribed listeners of which the first
throws, only one listener is invoked and the exception escapes — the second
listener is never called, contrary to the claim; in general no listener after
a throwing one is ever invoked. -/
theorem notify_stops_at_throwing_listener :
    runListenerLoop [true, false] = (1, true) ∧
    (∀ rest : List Bool, runListenerLoop (true :: rest) = (1, true)) :=
  ⟨rfl, fun _ => rfl⟩

/-! ## Sync loop (src/core/sync-engine.ts) -/

/-- src/core/types.ts `SyncCursor`. -/
structure SyncCursor where
  committedTimestampMs : Nat
  collectionId : String
  id : String
deriving Repr, DecidableEq

/-- src/core/sync-engine.ts `cursorsEqual`. -/
def cursorsEqual (a b : Option SyncCursor) : Bool :=
  match a, b with
  | none, none => true
  | none, some _ => false
  | some _, none => false
  | some a, some b =>
    a.committedTimestampMs == b.committedTimestampMs &&
      a.collectionId == b.collectionId && a.id == b.id

/-- src/core/types.ts `TransportPullResponse` (changes are applied through
`storage.applyRemote`, which does not touch the cursor key). -/
structure TransportPullResponse where
  changes : List StoredRow
  nextCursor : Option SyncCursor
  hasMore : Bool
deriving Repr, DecidableEq

/-- The pull loop of `runPullPhase` (src/core/sync-engine.ts lines 165-191),
driven by the successive transport responses; returns the sequence of cursors
persisted with `putKV` (steps c-e: persist `nextCursor` iff it is present and
differs from the current cursor; exit when `hasMore` is false or the cursor
did not advance).  The `started && isConnected()` guard is taken to hold
throughout the phase; the response list is the observed trace, and an
exhausted list ends the observation. -/
def runPullPhaseGo : Option SyncCursor → List TransportPullResponse → List SyncCursor
  | _, [] => []
  | cursor, response :: rest =>
    match response.nextCursor with
    | none => []
    | some nextCursor =>
      if cursorsEqual cursor (some nextCursor) then []
      else
        nextCursor ::
          (if response.hasMore then runPullPhaseGo (some nextCursor) rest else [])

/-- The pull phase starting from the cursor stored in the KV store
(`readCursor`; a shape-valid value is modelled by the typed option). -/
def runPullPhase (stored : Option SyncCursor) (responses : List TransportPullResponse) :
    List SyncCursor :=
  runPullPhaseGo stored responses

/-- Modelled from the spec: the total lexicographic order on sync cursors,
`(committedTimestampMs, collectionId, id)` compared in that field order
(spec section 3, "Sync cursor").  The code never compares cursors for order
(only `cursorsEqual`); this order is the one the claim quantifies over. -/
def cursorLeB (a b : SyncCursor) : Bool :=
  decide (a.committedTimestampMs < b.committedTimestampMs) ||
    (a.committedTimestampMs == b.committedTimestampMs &&
      (decide (a.collectionId < b.collectionId) ||
        (a.collectionId == b.collectionId &&
          (decide (a.id < b.id) || a.id == b.id))))

/-- Counterexample to C7 as stated: with cursor `(5, "a", "a")` persisted, a
single error-free pull response carrying `nextCursor = (1, "a", "a")` makes
the phase persist `(1, "a", "a")`, which is strictly smaller than the
previously persisted cursor in the lexicographic order — the code only checks
that the new cursor differs, not that it advances. -/
theorem pull_phase_persists_smaller_cursor :
    runPullPhase (some ⟨5, "a", "a"⟩)
        [{ changes := [], nextCursor := some ⟨1, "a", "a"⟩, hasMore := false }]
      = [⟨1, "a", "a"⟩] ∧
    cursorLeB ⟨5, "a", "a"⟩ ⟨1, "a", "a"⟩ = false := by
  decide

/-- The transport behaves like an ordered server: whenever a response carries
a `nextCursor` and the request carried a cursor, the new cursor is `≥` the
request's in the lexicographic order; the recursion mirrors the pull loop's
cursor evolution. -/
def PullResponsesRespectCursor : Option SyncCursor → List TransportPullResponse → Prop
  | _, [] => True
  | cursor, response :: rest =>
    (∀ nc, response.nextCursor = some nc → ∀ c, cursor = some c → cursorLeB c nc = true) ∧
    PullResponsesRespectCursor
      (match response.nextCursor with
       | none => cursor
       | some nc => if cursorsEqual cursor (some nc) then cursor else some nc) rest

/-- C7 (amended): the pull phase persists every `nextCursor` that merely
differs from the current cursor, so in general the persisted cursor can move
backwards (see the counterexample); when every pull response's `nextCursor`
is `≥` the cursor of its request in the lexicographic order on
`(committedTimestampMs, collectionId, id)`, the sequence formed by the
initially stored cursor followed by the persisted cursors is non-decreasing
in that order. -/
theorem pull_cursor_monotone_under_ordered_transport :
    ∀ (responses : List TransportPullResponse) (stored : Option SyncCursor),
      PullResponsesRespectCursor stored responses →
      List.Chain' (fun a b => cursorLeB a b = true)
        ((match stored with | some c => [c] | none => [])
          ++ runPullPhase stored responses) := by
  intro responses
  induction responses with
  | nil =>
    intro stored _
    cases stored with
    | none => exact List.chain'_nil
    | some c => exact List.chain'_singleton c
  | cons response rest ih =>
    intro stored hgood
    obtain ⟨hle, hgood'⟩ := hgood
    unfold runPullPhase runPullPhaseGo
    cases hnc : response.nextCursor with
    | none =>
      cases stored with
      | none => exact List.chain'_nil
      | some c => exact List.chain'_singleton c
    | some nextCursor =>
      dsimp only
      by_cases heq : cursorsEqual stored (some nextCursor) = true
      · rw [if_pos heq]
        cases stored with
        | none => exact List.chain'_nil
        | some c => exact List.chain'_singleton c
      · rw [if_neg heq]
        have htail : List.Chain' (fun a b => cursorLeB a b = true)
            (nextCursor ::
              (if response.hasMore then runPullPhaseGo (some nextCursor) rest else [])) := by
          by_cases hm : response.hasMore = true
          · rw [if_pos hm]
            rw [hnc] at hgood'
            have hg2 : PullResponsesRespectCursor
                (if cursorsEqual stored (some nextCursor) = true then stored
                  else some nextCursor) rest := hgood'
            rw [if_neg heq] at hg2
            have := ih (some nextCursor) hg2
            simpa using this
          · rw [if_neg hm]
            exact List.chain'_singleton nextCursor
        cases stored with
        | none => simpa using htail
        | some c =>
          refine List.chain'_cons.mpr ⟨hle nextCursor hnc c rfl, htail⟩

/-- Concrete responses for the C7 witness: an ordered transport advancing the
cursor twice. -/
def c7Resp1 : TransportPullResponse :=
  { changes := [], nextCursor := some ⟨1, "a", "a"⟩, hasMore := true }

def c7Resp2 : TransportPullResponse :=
  { changes := [], nextCursor := some ⟨2, "a", "a"⟩, hasMore := false }

/-- Witness for C7 (amended): two ordered pull responses starting from an
absent stored cursor yield a non-decreasing persisted-cursor sequence. -/
theorem pull_cursor_monotone_witness :
    List.Chain' (fun a b => cursorLeB a b = true) (runPullPhase none [c7Resp1, c7Resp2]) := by
  have hgood : PullResponsesRespectCursor none [c7Resp1, c7Resp2] := by
    refine ⟨?_, ?_, trivial⟩
    · intro nc _ c hc
      exact absurd hc (by simp)
    · intro nc hnc c hc
      injection hnc with hnc
      injection hc with hc
      subst hnc
      subst hc
      decide
  have h := pull_cursor_monotone_under_ordered_transport [c7Resp1, c7Resp2] none hgood
  simpa using h

/-! ## C8: push phase and acknowledgements -/

/-- The push loop of `runPushPhase` (src/core/sync-engine.ts lines 133-163),
driven by the successive `push` responses (each an optional
`acknowledgedThroughSequence`).  Returns the list of push-call payloads, the
list of `removePendingThrough` arguments, and the final pending log.  One
iteration: read a batch with `getPending`; exit if it is empty or its first
sequence does not exceed the anti-spin watermark; push; exit if the response
has no ack or the ack precedes the first sequence; else remove the
acknowledged prefix and loop.  The `started && isConnected()` guard is taken
to hold throughout the phase; the response list is the observed trace. -/
def runPushPhaseGo (batchSize : Nat) :
    List (Option Nat) → List PendingOperation → Option Nat →
      List (List PendingOperation) × List Nat × List PendingOperation
  | responses, pending, lastFirstPendingSequence =>
    let pendingBatch := getPendingOperations pending batchSize
    match pendingBatch.head? with
    | none => ([], [], pending)
    | some firstOp =>
      let spin : Bool :=
        match lastFirstPendingSequence with
        | some lf => decide (firstOp.sequence ≤ lf)
        | none => false
      if spin then ([], [], pending)
      else
        match responses with
        | [] => ([], [], pending)
        | response :: rest =>
          match response with
          | none => ([pendingBatch], [], pending)
          | some ack =>
            if ack < firstOp.sequence then ([pendingBatch], [], pending)
            else
              let next := runPushPhaseGo batchSize rest
                (removePendingOperationsThrough pending ack) (some firstOp.sequence)
              (pendingBatch :: next.1, ack :: next.2.1, next.2.2)

/-- The push phase of one sync cycle (`lastFirstPendingSequence` starts
undefined). -/
def runPushPhase (pending : List PendingOperation) (batchSize : Nat)
    (responses : List (Option Nat)) :
    List (List PendingOperation) × List Nat × List PendingOperation :=
  runPushPhaseGo batchSize responses pending none

/-- C8: in a cycle's push phase with a non-empty pending log, (i) a response
with no `acknowledgedThroughSequence` ends the phase after exactly one push,
removing nothing and leaving the pending log unchanged, whatever further
responses the transport would have returned; (ii) the same holds for an ack
smaller than the first pushed sequence; (iii) an ack at or beyond the first
sequence makes the phase call `removePendingThrough` with exactly that ack. -/
theorem push_phase_ack_behavior :
    ∀ (pending : List PendingOperation) (batchSize : Nat) (responses : List (Option Nat))
      (firstOp : PendingOperation),
      (getPendingOperations pending batchSize).head? = some firstOp →
      (runPushPhase pending batchSize (none :: responses)
          = ([getPendingOperations pending batchSize], [], pending)) ∧
      (∀ ack, ack < firstOp.sequence →
        runPushPhase pending batchSize (some ack :: responses)
          = ([getPendingOperations pending batchSize], [], pending)) ∧
      (∀ ack, firstOp.sequence ≤ ack →
        ∃ morePushes moreRemoves finalPending,
          runPushPhase pending batchSize (some ack :: responses)
            = (getPendingOperations pending batchSize :: morePushes,
                ack :: moreRemoves, finalPending)) := by
  intro pending batchSize responses firstOp hfirst
  refine ⟨?_, ?_, ?_⟩
  · unfold runPushPhase runPushPhaseGo
    dsimp only
    rw [hfirst]
    rfl
  · intro ack hack
    unfold runPushPhase runPushPhaseGo
    dsimp only
    rw [hfirst]
    dsimp only
    rw [if_pos hack]
    rfl
  · intro ack hack
    unfold runPushPhase runPushPhaseGo
    dsimp only
    rw [hfirst]
    dsimp only
    rw [if_neg (Nat.not_lt.mpr hack)]
    exact ⟨_, _, _, rfl⟩

/-- Concrete pending operation for the C8 witness. -/
def c8Op : PendingOperation :=
  ⟨1, PendingType.put, "c", "i", none, some "x", none, none, 1000, 0, "a"⟩

/-- Witness for C8: a pending log `[seq 1]` and a transport that never
acknowledges — exactly one push, no removal, pending unchanged. -/
theorem push_phase_ack_behavior_witness :
    runPushPhase [c8Op] 10 [none] = ([getPendingOperations [c8Op] 10], [], [c8Op]) :=
  (push_phase_ack_behavior [c8Op] 10 [] c8Op (by rfl)).1

end SyncSpec
